import Mathlib

/-!
Verification of the OrderedBitField bit-field packing engine
(`include/OrderedBitField/OrderedBitField.hpp`).

The C++ source is a compile-time template library.  We embed it shallowly:

* a storage unit of the base type `BaseT` is a `Nat` holding a bit pattern,
  with `FieldTypeBits` (written `U` below) significant bits;
* `static_cast` to the `U`-bit underlying type is `bitsLow U`, two's
  complement interpretation of a pattern is `toSigned U`, arithmetic right
  shift is `sar`;
* the layout tables (`FieldBegin`, `Mask`, `dataSize`) become functions of
  the list of field widths;
* each overloaded operator of `FieldProxy` becomes a function from the old
  unit pattern (and right-hand operand) to the new unit pattern;
* arithmetic on operands of a type narrower than `int` happens after C++
  integer promotion: `promBits U = max U 32` is the width of the promoted
  type, and the signed conversion operator (`readS`) and the signed
  `operator>>=` (`shrAssignS`) are evaluated at that width, with `<<`
  wrapping modulo `2 ^ promBits U` and `>>` arithmetic;
* the `Data` member initializer becomes `initData`;
* the `static_assert` configuration-time rejections become an
  `Except ConfigError` result computed from the configuration alone; the
  zero-size assert compares the mask as a value of the underlying type, so
  it is a signed comparison when that type is signed.

Signedness of the underlying type is a `Bool` parameter `sgn` wherever the
source branches on `std::is_unsigned_v`.
-/

namespace OrderedBitField

/-- Bit pattern (low `U` bits) of an integer value: models `static_cast` of
a value to a `U`-bit integer type (two's complement for negatives). -/
def bitsLow (U : Nat) (v : Int) : Nat := (v % (2 ^ U : Int)).toNat

/-- Value of a `U`-bit pattern read as a two's complement signed integer:
models reading a pattern through a signed `U`-bit type. -/
def toSigned (U : Nat) (x : Nat) : Int :=
  if x < 2 ^ (U - 1) then (x : Int) else (x : Int) - 2 ^ U

/-- Arithmetic shift right (floor division by a power of two): models `>>`
on a signed operand. -/
def sar (v : Int) (n : Nat) : Int := Int.fdiv v (2 ^ n)

/-- Complement of a mask inside a `U`-bit unit: models `~Mask` computed at
the `U`-bit underlying type. -/
def complU (U m : Nat) : Nat := (2 ^ U - 1) ^^^ m

/-- Number of bits of C++ `int`: by the usual arithmetic conversions,
operands of an integral type narrower than `int` are promoted to `int`
(32 bits on the modelled platform) before any arithmetic or shift. -/
def intBits : Nat := 32

/-- Width of the type in which an expression over `U`-bit operands is
evaluated: `U` itself when the underlying type is at least as wide as
`int`, otherwise the width of `int`. -/
def promBits (U : Nat) : Nat := max U intBits

/-! ## Layout planner (`FieldBegin`, `Mask`, `dataSize`) -/

/-- The `toSkipToNextUnit` test inside the `FieldBegin` initializer:
placing `W` bits at cursor `BeginBit` would straddle a unit boundary.
`BeginBit + W - 1` is evaluated in `size_t`, so when `BeginBit = W = 0`
it wraps around to `2 ^ 64 - 1`. -/
def toSkipToNextUnit (U BeginBit W : Nat) : Bool :=
  BeginBit / U != (if BeginBit + W = 0 then 2 ^ 64 - 1 else BeginBit + W - 1) / U

/-- `((c + U - 1) / U) * U`: the next multiple of `U` at or after `c`,
as computed by the skip branches of the `FieldBegin` loop. -/
def alignUp (U c : Nat) : Nat := (c + U - 1) / U * U

/-- Begin position recorded by one iteration of the `FieldBegin` loop for a
field of width `w` when the running cursor is `c`. -/
def beginStep (U c w : Nat) : Nat :=
  if toSkipToNextUnit U c w then alignUp U c else c

/-- Cursor value after one iteration of the `FieldBegin` loop: a zero-width
field re-aligns the cursor to the next unit boundary, any other field
consumes `w` bits. -/
def cursorStep (U c w : Nat) : Nat :=
  if w = 0 then alignUp U (beginStep U c w) else beginStep U c w + w

/-- The array `B` built by the `FieldBegin` initializer, starting from
cursor `c`: the begin position of every field followed by the final cursor
(`B[NFields]`). -/
def fieldBeginList (U : Nat) : List Nat → Nat → List Nat
  | [], c => [c]
  | w :: ws, c => beginStep U c w :: fieldBeginList U ws (cursorStep U c w)

/-- Final cursor after laying out `ws` starting from `c`. -/
def cursorAfter (U : Nat) (ws : List Nat) (c : Nat) : Nat :=
  ws.foldl (cursorStep U) c

/-- `FieldBegin[i]` of the full layout (entry `ws.length` is the final
cursor). -/
def fieldBegin (U : Nat) (ws : List Nat) (i : Nat) : Nat :=
  (fieldBeginList U ws 0).getD i 0

/-- `dataSize()`: `(FieldBegin[NFields] + FieldTypeBits - 1) / FieldTypeBits`. -/
def dataSize (U : Nat) (ws : List Nat) : Nat :=
  (fieldBegin U ws ws.length + U - 1) / U

/-- The `Mask` entry for a field of width `w` whose begin position is
`sh` bits into its unit: `min(w, U)` consecutive bits set starting at `sh`,
accumulated bit by bit with each `1 << S` cast to the `U`-bit type. -/
def maskOf (U sh w : Nat) : Nat :=
  (List.range (min w U)).foldl (fun M J => M ||| ((1 <<< (sh + J)) % 2 ^ U)) 0

/-- Shift (`FieldBegin[i] % FieldTypeBits`) of field `i`. -/
def shiftAt (U : Nat) (ws : List Nat) (i : Nat) : Nat := fieldBegin U ws i % U

/-- Unit index (`FieldBegin[i] / FieldTypeBits`) of field `i`. -/
def unitAt (U : Nat) (ws : List Nat) (i : Nat) : Nat := fieldBegin U ws i / U

/-- `Mask[i]` of the layout. -/
def maskAt (U : Nat) (ws : List Nat) (i : Nat) : Nat :=
  maskOf U (shiftAt U ws i) (ws.getD i 0)

/-- The condition of the opt-in `ORDERED_BIT_FIELD_DISALLOW_OVERSIZED_FIELD`
`static_assert`: every declared width is at most the unit width. -/
def disallowOversizedOk (U : Nat) (ws : List Nat) : Bool :=
  ws.all (fun w => decide (w ≤ U))

/-! ## Field accessor (`FieldProxy`) -/

/-- Unsigned branch of the conversion operator: `(Field & Mask) >> Shift`. -/
def readU (sh m f : Nat) : Nat := (f &&& m) >>> sh

/-- The search loop computing `MaskMsbOffset`: first `off` (scanning from
the most significant bit down) whose bit is set in the mask, `0` if the
loop runs out (the source notes this is unreachable for a non-zero mask). -/
def msbOffsetGo (T m : Nat) : Nat → Nat → Nat
  | 0, _ => 0
  | fuel + 1, off =>
    if m &&& (1 <<< (T - off - 1)) != 0 then off
    else msbOffsetGo T m fuel (off + 1)

/-- `MaskMsbOffset`: the number of leading zero bits of the mask in a
`T`-bit unit. -/
def maskMsbOffset (T m : Nat) : Nat := msbOffsetGo T m T 0

/-- Signed branch of the conversion operator:
`(Field & Mask) << MaskMsbOffset >> (Shift + MaskMsbOffset)`.  Both
operands of `&` are values of the signed `U`-bit underlying type, so the
expression is evaluated in the integer-promoted type of `promBits U` bits:
the operands are sign-extended to that width, `<<` wraps modulo
`2 ^ promBits U`, `>>` is arithmetic, and the final
`static_cast<FieldType>` truncates the result back to `U` bits (whose
value the signed `FieldType` then reads as two's complement). -/
def readS (U sh m f : Nat) : Int :=
  toSigned U (bitsLow U
    (sar
      (toSigned (promBits U)
        (((bitsLow (promBits U) (toSigned U f) &&& bitsLow (promBits U) (toSigned U m))
            <<< maskMsbOffset U m) % 2 ^ promBits U))
      (sh + maskMsbOffset U m)))

/-- The conversion operator `operator FieldType`: the signed (promoted)
read exactly when the underlying type is signed, the plain masked shift
otherwise. -/
def readField (sgn : Bool) (U sh m f : Nat) : Int :=
  if sgn then readS U sh m f else (readU sh m f : Int)

/-- `operator=`:
`Field = (Field & ~Mask) | (UnderlyingType(Rhs) << Shift & Mask)`, with the
result cast back to the `U`-bit unit type. -/
def assignOp (U sh m f : Nat) (rhs : Int) : Nat :=
  ((f &&& complU U m) ||| ((bitsLow U rhs <<< sh) &&& m)) % 2 ^ U

/-- Shape shared by the arithmetic compound assignments
(`+=, -=, *=, /=, %=`): the value `v`, computed in the promoted arithmetic
type, is placed by `v << Shift & Mask` over the preserved
`Field & ~Mask`. -/
def rmwShape (U sh m f : Nat) (v : Int) : Nat :=
  ((f &&& complU U m) ||| (bitsLow U (v * 2 ^ sh) &&& m)) % 2 ^ U

/-- `operator+=`: `Field & ~Mask | ((FieldType)(*this) + Rhs) << Shift & Mask`. -/
def addAssign (sgn : Bool) (U sh m f : Nat) (rhs : Int) : Nat :=
  rmwShape U sh m f (readField sgn U sh m f + rhs)

/-- `operator-=`. -/
def subAssign (sgn : Bool) (U sh m f : Nat) (rhs : Int) : Nat :=
  rmwShape U sh m f (readField sgn U sh m f - rhs)

/-- `operator*=`. -/
def mulAssign (sgn : Bool) (U sh m f : Nat) (rhs : Int) : Nat :=
  rmwShape U sh m f (readField sgn U sh m f * rhs)

/-- `operator/=`: divides `static_cast<FieldType>(*this)` — the value
returned by the conversion operator, `readField` — by the operand in the
promoted type (C++ `/` truncates toward zero, hence `Int.tdiv`). -/
def divAssign (sgn : Bool) (U sh m f : Nat) (rhs : Int) : Nat :=
  rmwShape U sh m f (Int.tdiv (readField sgn U sh m f) rhs)

/-- `operator%=`: remainder of the conversion-operator value by the operand
(C++ `%` pairs with truncating division, hence `Int.tmod`). -/
def modAssign (sgn : Bool) (U sh m f : Nat) (rhs : Int) : Nat :=
  rmwShape U sh m f (Int.tmod (readField sgn U sh m f) rhs)

/-- `operator&=`: `Field = Field & (UnderlyingType(Rhs) << Shift | ~Mask)`. -/
def andAssign (U sh m f : Nat) (rhs : Int) : Nat :=
  (f &&& ((bitsLow U rhs <<< sh) ||| complU U m)) % 2 ^ U

/-- `operator|=`: `Field = Field | UnderlyingType(Rhs) << Shift & Mask`. -/
def orAssign (U sh m f : Nat) (rhs : Int) : Nat :=
  (f ||| ((bitsLow U rhs <<< sh) &&& m)) % 2 ^ U

/-- `operator^=`:
`Field = Field & ~Mask | (Field ^ UnderlyingType(Rhs) << Shift) & Mask`. -/
def xorAssign (U sh m f : Nat) (rhs : Int) : Nat :=
  ((f &&& complU U m) ||| ((f ^^^ (bitsLow U rhs <<< sh)) &&& m)) % 2 ^ U

/-- `operator<<=`:
`Field = Field & ~Mask | (Field & Mask) << Rhs & Mask` (the source uses the
raw masked pattern for signed and unsigned types alike). -/
def shlAssign (U sh m f : Nat) (rhs : Nat) : Nat :=
  ((f &&& complU U m) ||| (((f &&& m) <<< rhs) &&& m)) % 2 ^ U

/-- `operator>>=`, unsigned branch:
`Field = Field & ~Mask | (Field & Mask) >> Rhs & Mask`. -/
def shrAssignU (U sh m f : Nat) (rhs : Nat) : Nat :=
  ((f &&& complU U m) ||| (((f &&& m) >>> rhs) &&& m)) % 2 ^ U

/-- `operator>>=`, signed branch:
`Field = Field & ~Mask | (FieldType)(*this) << Shift >> Rhs & Mask`,
evaluated in the promoted type: `(FieldType)(*this)` is the conversion
value `readS`, `<< Shift` wraps modulo `2 ^ promBits U`, and `>>` on the
signed promoted type is arithmetic. -/
def shrAssignS (U sh m f : Nat) (rhs : Nat) : Nat :=
  ((f &&& complU U m)
    ||| (bitsLow U
          (sar (toSigned (promBits U) (bitsLow (promBits U) (readS U sh m f * 2 ^ sh))) rhs)
        &&& m)) % 2 ^ U

/-- `operator>>=` with its `is_unsigned` branch. -/
def shrAssign (sgn : Bool) (U sh m f : Nat) (rhs : Nat) : Nat :=
  if sgn then shrAssignS U sh m f rhs else shrAssignU U sh m f rhs

/-! ## Packed storage -/

/-- Write value `v` through `operator=` to field `i`: update the storage
unit `Data[FieldBegin[i] / U]`. -/
def setField (U : Nat) (ws : List Nat) (data : List Nat) (i : Nat) (v : Int) : List Nat :=
  data.set (unitAt U ws i)
    (assignOp U (shiftAt U ws i) (maskAt U ws i) (data.getD (unitAt U ws i) 0) v)

/-- The `Data` member initializer: a zero-initialized array of
`dataSize()` units into which every field's default value is burned in
field order via the `operator=` formula. -/
def initData (U : Nat) (ws : List Nat) (ds : List Int) : List Nat :=
  (List.range ws.length).foldl (fun F i => setField U ws F i (ds.getD i 0))
    (List.replicate (dataSize U ws) 0)

/-- Unsigned read of field `i` from the storage. -/
def getU (U : Nat) (ws : List Nat) (data : List Nat) (i : Nat) : Nat :=
  readU (shiftAt U ws i) (maskAt U ws i) (data.getD (unitAt U ws i) 0)

/-- Signed-conversion read of field `i` from the storage (sign-extending
only where the promoted conversion sign-extends). -/
def getS (U : Nat) (ws : List Nat) (data : List Nat) (i : Nat) : Int :=
  readS U (shiftAt U ws i) (maskAt U ws i) (data.getD (unitAt U ws i) 0)

/-! ## Configuration-time rejection (`static_assert`) -/

/-- The configuration-time failures of `FieldProxy`: the
`static_assert(Mask > 0)` on proxy instantiation and the
`static_assert(!is_const_v<FieldT>)` in every mutating operator. -/
inductive ConfigError where
  | zeroSizeMember : ConfigError
  | readOnlyMember : ConfigError
deriving DecidableEq

/-- A bound accessor as handed out by `get`: its shift, its mask, and
whether the bound proxy type is mutable (`FieldProxy<FieldType, ...>`
rather than `FieldProxy<const FieldType, ...>`). -/
structure Accessor where
  shift : Nat
  mask : Nat
  writable : Bool
deriving DecidableEq

/-- The negation of the proxy's zero-size assertion
`static_assert(static_cast<UnderlyingType>(Mask) > 0)`: the mask is
compared as a value of the underlying type, so for a signed underlying
type the comparison is signed (a mask holding the unit's top bit is a
negative value and fails the assert), while for an unsigned type only the
empty mask fails. -/
def maskAssertFails (sgn : Bool) (U m : Nat) : Bool :=
  if sgn then decide (toSigned U m ≤ 0) else decide (m = 0)

/-- Requesting an accessor for field `i` (`get<I>`): instantiating
`FieldProxy` fails its `static_assert` when the computed mask, read as a
value of the underlying type, is not positive; otherwise the proxy is
const-qualified exactly when the field is `fixed`.  The result depends on
the configuration only, never on a storage instance. -/
def getAccessor (sgn : Bool) (U : Nat) (ws : List Nat) (fixed : List Bool) (i : Nat) :
    Except ConfigError Accessor :=
  if maskAssertFails sgn U (maskAt U ws i) then .error .zeroSizeMember
  else .ok ⟨shiftAt U ws i, maskAt U ws i, !(fixed.getD i true)⟩

/-- A write attempt through an accessor: every mutating operator of
`FieldProxy` carries `static_assert(!is_const_v<FieldT>)`, so writing
through a const-qualified proxy is rejected before any storage value is
touched. -/
def tryAssign (U : Nat) (acc : Accessor) (f : Nat) (v : Int) : Except ConfigError Nat :=
  if acc.writable then .ok (assignOp U acc.shift acc.mask f v)
  else .error .readOnlyMember

/-! ## Arithmetic facts about the layout cursor -/

theorem le_alignUp {U : Nat} (hU : 0 < U) (c : Nat) : c ≤ alignUp U c := by
  have h := Nat.div_add_mod (c + U - 1) U
  have h2 : (c + U - 1) % U < U := Nat.mod_lt _ hU
  unfold alignUp
  rw [Nat.mul_comm]
  omega

theorem alignUp_lt {U : Nat} (hU : 0 < U) (c : Nat) : alignUp U c < c + U := by
  have h := Nat.div_add_mod (c + U - 1) U
  unfold alignUp
  rw [Nat.mul_comm]
  omega

theorem alignUp_mod {U : Nat} (c : Nat) : alignUp U c % U = 0 := by
  simp [alignUp, Nat.mul_mod_left]

theorem alignUp_of_aligned {U c : Nat} (hU : 0 < U) (h : c % U = 0) : alignUp U c = c := by
  obtain ⟨q, rfl⟩ : ∃ q, c = U * q := ⟨c / U, by have := Nat.div_add_mod c U; omega⟩
  unfold alignUp
  rw [Nat.add_sub_assoc (by omega), Nat.mul_add_div hU, Nat.div_eq_of_lt (by omega), Nat.add_zero,
    Nat.mul_comm]

theorem toSkipToNextUnit_of_wide {U c w : Nat} (hU : 0 < U) (hw : U < w) :
    toSkipToNextUnit U c w = true := by
  have h1 : (c + U) / U ≤ (c + w - 1) / U := Nat.div_le_div_right (by omega)
  rw [Nat.add_div_right _ hU] at h1
  unfold toSkipToNextUnit
  rw [if_neg (by omega)]
  simp only [bne_iff_ne, ne_eq]
  omega

theorem fits_of_not_skip {U c w : Nat} (hU : 0 < U) (hw : 0 < w)
    (h : toSkipToNextUnit U c w = false) : c % U + w ≤ U := by
  unfold toSkipToNextUnit at h
  rw [if_neg (by omega)] at h
  have heq : c / U = (c + w - 1) / U := by simpa using h
  have hlt : c + w - 1 < U * ((c + w - 1) / U) + U := by
    have h1 := Nat.div_add_mod (c + w - 1) U
    have h2 : (c + w - 1) % U < U := Nat.mod_lt _ hU
    omega
  rw [← heq] at hlt
  have hc := Nat.div_add_mod c U
  omega

theorem le_beginStep {U : Nat} (hU : 0 < U) (c w : Nat) : c ≤ beginStep U c w := by
  unfold beginStep
  split
  · exact le_alignUp hU c
  · exact Nat.le_refl c

theorem beginStep_fits {U w : Nat} (hU : 0 < U) (hw : 0 < w) (c : Nat) :
    beginStep U c w % U + min w U ≤ U := by
  unfold beginStep
  split
  case isTrue h =>
    rw [alignUp_mod]
    have := Nat.min_le_right w U
    omega
  case isFalse h =>
    by_cases hwU : U < w
    · exact absurd (toSkipToNextUnit_of_wide hU hwU) h
    · have h2 := fits_of_not_skip hU hw (by simpa using h)
      rw [Nat.min_eq_left (by omega)]
      omega

theorem beginStep_zero_width {U : Nat} (hU : 0 < U) (c : Nat) : beginStep U c 0 = c := by
  unfold beginStep
  split
  case isTrue h =>
    rcases Nat.eq_zero_or_pos c with rfl | hc
    · unfold alignUp
      rw [Nat.zero_add, Nat.div_eq_of_lt (by omega), Nat.zero_mul]
    · apply alignUp_of_aligned hU
      unfold toSkipToNextUnit at h
      rw [if_neg (by omega)] at h
      simp only [bne_iff_ne, ne_eq] at h
      by_contra hmod
      obtain ⟨q, r, hc', hr⟩ : ∃ q r, c = U * q + r ∧ r < U :=
        ⟨c / U, c % U, by have := Nat.div_add_mod c U; omega, Nat.mod_lt _ hU⟩
      have hq : c / U = q := by
        rw [hc', Nat.mul_add_div hU, Nat.div_eq_of_lt hr, Nat.add_zero]
      have hr0 : r ≠ 0 := by
        intro h0
        exact hmod (by rw [hc', h0, Nat.add_zero, Nat.mul_mod_right])
      have hq2 : (c + 0 - 1) / U = q := by
        rw [hc', show U * q + r + 0 - 1 = U * q + (r - 1) by omega, Nat.mul_add_div hU,
          Nat.div_eq_of_lt (by omega), Nat.add_zero]
      exact h (by rw [hq, hq2])
  case isFalse h => rfl

theorem cursorStep_zero_width {U : Nat} (hU : 0 < U) (c : Nat) :
    cursorStep U c 0 = alignUp U c := by
  unfold cursorStep
  rw [if_pos rfl, beginStep_zero_width hU]

theorem cursorStep_pos_width {U c w : Nat} (hw : w ≠ 0) :
    cursorStep U c w = beginStep U c w + w := by
  unfold cursorStep
  rw [if_neg hw]

theorem beginStep_le_cursorStep {U : Nat} (hU : 0 < U) (c w : Nat) :
    beginStep U c w ≤ cursorStep U c w := by
  unfold cursorStep
  split
  · exact le_alignUp hU _
  · exact Nat.le_add_right _ _

theorem le_cursorStep {U : Nat} (hU : 0 < U) (c w : Nat) : c ≤ cursorStep U c w :=
  Nat.le_trans (le_beginStep hU c w) (beginStep_le_cursorStep hU c w)

/-! ## Structure of the `FieldBegin` table -/

theorem fieldBeginList_length {U : Nat} :
    ∀ (ws : List Nat) (c : Nat), (fieldBeginList U ws c).length = ws.length + 1
  | [], _ => rfl
  | _ :: ws, c => by simp [fieldBeginList, fieldBeginList_length ws]

theorem le_fieldBeginList {U : Nat} (hU : 0 < U) :
    ∀ (ws : List Nat) (c i : Nat), i ≤ ws.length → c ≤ (fieldBeginList U ws c).getD i 0
  | [], c, 0, _ => Nat.le_refl c
  | [], _, i + 1, h => by simp at h
  | w :: ws, c, 0, _ => le_beginStep hU c w
  | w :: ws, c, i + 1, h => by
    have h2 := le_fieldBeginList hU ws (cursorStep U c w) i (by simpa using h)
    exact Nat.le_trans (le_cursorStep hU c w) h2

theorem fieldBeginList_mono {U : Nat} (hU : 0 < U) :
    ∀ (ws : List Nat) (c i j : Nat), i ≤ j → j ≤ ws.length →
      (fieldBeginList U ws c).getD i 0 ≤ (fieldBeginList U ws c).getD j 0
  | [], _, 0, 0, _, _ => Nat.le_refl _
  | [], _, i + 1, 0, hij, _ => by omega
  | [], _, _, j + 1, _, h => by simp at h
  | _ :: _, _, 0, 0, _, _ => Nat.le_refl _
  | w :: ws, c, 0, j + 1, _, h => by
    have h2 := le_fieldBeginList hU ws (cursorStep U c w) j (by simpa using h)
    exact Nat.le_trans (beginStep_le_cursorStep hU c w) h2
  | _ :: _, _, i + 1, 0, hij, _ => by omega
  | w :: ws, c, i + 1, j + 1, hij, h =>
    fieldBeginList_mono hU ws (cursorStep U c w) i j (by omega) (by simpa using h)

theorem fieldBeginList_advance {U : Nat} (hU : 0 < U) :
    ∀ (ws : List Nat) (c i j : Nat), ws.getD i 0 ≠ 0 → i < j → j ≤ ws.length →
      (fieldBeginList U ws c).getD i 0 + ws.getD i 0 ≤ (fieldBeginList U ws c).getD j 0
  | [], _, i, j, _, hij, h => by simp at h; omega
  | _ :: _, _, _, 0, _, hij, _ => by omega
  | w :: ws, c, 0, j + 1, hw, _, h => by
    have h2 := le_fieldBeginList hU ws (cursorStep U c w) j (by simpa using h)
    have h3 : cursorStep U c w = beginStep U c w + w := cursorStep_pos_width (by simpa using hw)
    simp only [fieldBeginList, List.getD_cons_zero, List.getD_cons_succ]
    omega
  | w :: ws, c, i + 1, j + 1, hw, hij, h =>
    fieldBeginList_advance hU ws (cursorStep U c w) i j (by simpa using hw) (by omega)
      (by simpa using h)

theorem fieldBeginList_getD_length {U : Nat} :
    ∀ (ws : List Nat) (c : Nat), (fieldBeginList U ws c).getD ws.length 0 = cursorAfter U ws c
  | [], _ => rfl
  | w :: ws, c => by
    simp only [fieldBeginList, cursorAfter, List.length_cons, List.getD_cons_succ,
      List.foldl_cons]
    exact fieldBeginList_getD_length ws (cursorStep U c w)

theorem fieldBeginList_getD_of_lt {U : Nat} :
    ∀ (ws : List Nat) (c i : Nat), i < ws.length →
      (fieldBeginList U ws c).getD i 0
        = beginStep U (cursorAfter U (ws.take i) c) (ws.getD i 0)
  | [], _, _, h => by simp at h
  | w :: ws, c, 0, _ => rfl
  | w :: ws, c, i + 1, h => by
    simp only [fieldBeginList, List.getD_cons_succ, List.take_succ_cons, cursorAfter,
      List.foldl_cons]
    exact fieldBeginList_getD_of_lt ws (cursorStep U c w) i (by simpa using h)

theorem fieldBegin_eq_beginStep {U : Nat} {ws : List Nat} {i : Nat} (hi : i < ws.length) :
    fieldBegin U ws i = beginStep U (cursorAfter U (ws.take i) 0) (ws.getD i 0) :=
  fieldBeginList_getD_of_lt ws 0 i hi

theorem fieldBegin_length_eq {U : Nat} (ws : List Nat) :
    fieldBegin U ws ws.length = cursorAfter U ws 0 :=
  fieldBeginList_getD_length ws 0

/-- Every non-zero-width field has its `min(width, U)` mask bits inside its
storage unit. -/
theorem shiftAt_add_min_le {U : Nat} {ws : List Nat} {i : Nat} (hU : 0 < U)
    (hi : i < ws.length) (hw : 0 < ws.getD i 0) :
    shiftAt U ws i + min (ws.getD i 0) U ≤ U := by
  rw [shiftAt, fieldBegin_eq_beginStep hi]
  exact beginStep_fits hU hw _

/-! ## Bit-level toolkit -/

theorem testBit_eq_false_of_lt {x n i : Nat} (h : x < 2 ^ n) (hi : n ≤ i) :
    x.testBit i = false :=
  Nat.testBit_lt_two_pow (Nat.lt_of_lt_of_le h (Nat.pow_le_pow_right (by omega) hi))

theorem lt_of_testBit_true {x n i : Nat} (h : x.testBit i = true) (hx : x < 2 ^ n) : i < n := by
  by_contra hc
  rw [testBit_eq_false_of_lt hx (by omega)] at h
  exact Bool.noConfusion h

theorem shiftLeft_lt {x n sh : Nat} (h : x < 2 ^ n) : x <<< sh < 2 ^ (n + sh) := by
  rw [Nat.shiftLeft_eq, Nat.pow_add]
  exact Nat.mul_lt_mul_of_lt_of_le h (Nat.le_refl _) (Nat.two_pow_pos sh)

/-- Closed form of the `Mask` loop: `n` consecutive bits starting at `sh`. -/
theorem maskOf_go {U : Nat} :
    ∀ (n sh : Nat), sh + n ≤ U →
      (List.range n).foldl (fun M J => M ||| ((1 <<< (sh + J)) % 2 ^ U)) 0
        = (2 ^ n - 1) <<< sh
  | 0, sh, _ => by simp
  | n + 1, sh, h => by
    rw [List.range_succ, List.foldl_append, maskOf_go n sh (by omega)]
    simp only [List.foldl_cons, List.foldl_nil]
    have h1 : (1 : Nat) <<< (sh + n) % 2 ^ U = 2 ^ (sh + n) := by
      rw [Nat.shiftLeft_eq, Nat.one_mul,
        Nat.mod_eq_of_lt (Nat.pow_lt_pow_right (by omega) (by omega))]
    rw [h1]
    apply Nat.eq_of_testBit_eq
    intro i
    simp only [Nat.testBit_or, Nat.testBit_shiftLeft, Nat.testBit_two_pow_sub_one,
      Nat.testBit_two_pow, ge_iff_le]
    by_cases h2 : sh ≤ i <;> by_cases h3 : i - sh < n <;> by_cases h4 : sh + n = i <;>
      simp [h2, h3, h4] <;> omega

theorem maskOf_eq {U sh w : Nat} (h : sh + min w U ≤ U) :
    maskOf U sh w = (2 ^ min w U - 1) <<< sh :=
  maskOf_go (min w U) sh h

theorem maskOf_testBit {U sh w : Nat} (h : sh + min w U ≤ U) (i : Nat) :
    (maskOf U sh w).testBit i = (decide (sh ≤ i) && decide (i - sh < min w U)) := by
  rw [maskOf_eq h]
  simp [Nat.testBit_shiftLeft, Nat.testBit_two_pow_sub_one]

theorem maskOf_lt {U sh w : Nat} (h : sh + min w U ≤ U) : maskOf U sh w < 2 ^ U := by
  rw [maskOf_eq h]
  have h1 : 2 ^ min w U - 1 < 2 ^ min w U := by have := Nat.two_pow_pos (min w U); omega
  exact Nat.lt_of_lt_of_le (shiftLeft_lt h1) (Nat.pow_le_pow_right (by omega) (by omega))

theorem maskOf_ne_zero {U sh w : Nat} (hU : 0 < U) (hw : 0 < w) (h : sh + min w U ≤ U) :
    maskOf U sh w ≠ 0 := by
  intro h0
  have hb := maskOf_testBit h sh
  rw [h0] at hb
  simp only [Nat.zero_testBit] at hb
  have : 0 < min w U := by omega
  simp [this] at hb

theorem maskOf_zero_width {U sh : Nat} : maskOf U sh 0 = 0 := by
  simp [maskOf]

theorem complU_testBit {U m : Nat} (hm : m < 2 ^ U) (i : Nat) :
    (complU U m).testBit i = (decide (i < U) && !(m.testBit i)) := by
  unfold complU
  simp only [Nat.testBit_xor, Nat.testBit_two_pow_sub_one]
  by_cases h : i < U
  · simp [h]
  · have hb : m.testBit i = false := testBit_eq_false_of_lt hm (Nat.le_of_not_lt h)
    simp [h, hb]

theorem complU_lt {U m : Nat} (hU : 0 < U) (hm : m < 2 ^ U) : complU U m < 2 ^ U :=
  Nat.xor_lt_two_pow (by have := Nat.two_pow_pos U; omega) hm

/-! ## The frame property of every mutating operator -/

/-- The new unit pattern `g` agrees with the old pattern `f` on every bit
outside the mask `m` (within the `U` significant bits). -/
def MaskedUpdate (U m f g : Nat) : Prop :=
  g &&& complU U m = f &&& complU U m

theorem maskedUpdate_or_shape {U m f x : Nat} (hU : 0 < U) (hm : m < 2 ^ U) :
    MaskedUpdate U m f (((f &&& complU U m) ||| (x &&& m)) % 2 ^ U) := by
  have hlt : (f &&& complU U m) ||| (x &&& m) < 2 ^ U :=
    Nat.or_lt_two_pow (Nat.lt_of_le_of_lt Nat.and_le_right (complU_lt hU hm))
      (Nat.lt_of_le_of_lt Nat.and_le_right hm)
  unfold MaskedUpdate
  rw [Nat.mod_eq_of_lt hlt]
  apply Nat.eq_of_testBit_eq
  intro i
  simp only [Nat.testBit_or, Nat.testBit_and, complU_testBit hm]
  cases f.testBit i <;> cases x.testBit i <;> cases m.testBit i <;>
    cases hd : decide (i < U) <;> simp

theorem maskedUpdate_orAssign_shape {U m f x : Nat} (hm : m < 2 ^ U) (hf : f < 2 ^ U) :
    MaskedUpdate U m f ((f ||| (x &&& m)) % 2 ^ U) := by
  have hlt : f ||| (x &&& m) < 2 ^ U :=
    Nat.or_lt_two_pow hf (Nat.lt_of_le_of_lt Nat.and_le_right hm)
  unfold MaskedUpdate
  rw [Nat.mod_eq_of_lt hlt]
  apply Nat.eq_of_testBit_eq
  intro i
  simp only [Nat.testBit_or, Nat.testBit_and, complU_testBit hm]
  cases f.testBit i <;> cases x.testBit i <;> cases m.testBit i <;>
    cases hd : decide (i < U) <;> simp

theorem maskedUpdate_andAssign_shape {U m f x : Nat} (hm : m < 2 ^ U) (hf : f < 2 ^ U) :
    MaskedUpdate U m f ((f &&& (x ||| complU U m)) % 2 ^ U) := by
  have hlt : f &&& (x ||| complU U m) < 2 ^ U := Nat.lt_of_le_of_lt Nat.and_le_left hf
  unfold MaskedUpdate
  rw [Nat.mod_eq_of_lt hlt]
  apply Nat.eq_of_testBit_eq
  intro i
  simp only [Nat.testBit_or, Nat.testBit_and, complU_testBit hm]
  cases f.testBit i <;> cases x.testBit i <;> cases m.testBit i <;>
    cases hd : decide (i < U) <;> simp

/-- A masked update of one field does not change the bits of any disjoint
mask in the same unit. -/
theorem and_eq_of_maskedUpdate {U mi mj f g : Nat} (hmi : mi < 2 ^ U) (hmj : mj < 2 ^ U)
    (hma : MaskedUpdate U mi f g) (hdisj : mi &&& mj = 0) : g &&& mj = f &&& mj := by
  apply Nat.eq_of_testBit_eq
  intro i
  have h1 : (g &&& complU U mi).testBit i = (f &&& complU U mi).testBit i := by
    rw [hma]
  simp only [Nat.testBit_and, complU_testBit hmi] at h1
  have h2 : (mi &&& mj).testBit i = Nat.testBit 0 i := by rw [hdisj]
  simp only [Nat.testBit_and, Nat.zero_testBit] at h2
  simp only [Nat.testBit_and]
  cases hj : mj.testBit i
  · simp
  · have hiU : i < U := lt_of_testBit_true hj hmj
    rw [hj] at h2
    simp only [Bool.and_true] at h2
    rw [h2] at h1
    simp [hiU] at h1
    rw [h1]

/-! ## Patterns of integer values -/

theorem bitsLow_nonneg_emod {U : Nat} (v : Int) : (0 : Int) ≤ v % 2 ^ U :=
  Int.emod_nonneg v (by positivity : (0:Int) < 2 ^ U).ne'

theorem bitsLow_cast {U : Nat} (v : Int) : ((bitsLow U v : Nat) : Int) = v % 2 ^ U := by
  rw [bitsLow, Int.toNat_of_nonneg (bitsLow_nonneg_emod v)]

theorem bitsLow_lt {U : Nat} (v : Int) : bitsLow U v < 2 ^ U := by
  have h2 := Int.emod_lt_of_pos v (by positivity : (0:Int) < 2 ^ U)
  have h3 := bitsLow_cast (U := U) v
  have h4 : ((2 ^ U : Nat) : Int) = 2 ^ U := by push_cast; ring
  omega

theorem bitsLow_natCast {U : Nat} (x : Nat) (h : x < 2 ^ U) : bitsLow U (x : Int) = x := by
  have h3 := bitsLow_cast (U := U) (x : Int)
  rw [Int.emod_eq_of_lt (by positivity) (by exact_mod_cast h)] at h3
  exact_mod_cast h3

theorem bitsLow_mod {U W : Nat} (v : Int) (h : U ≤ W) :
    bitsLow U v = bitsLow W v % 2 ^ U := by
  have hd : ((2:Int) ^ U) ∣ ((2:Int) ^ W) := pow_dvd_pow 2 h
  have h1 : ((bitsLow U v : Nat) : Int) = ((bitsLow W v % 2 ^ U : Nat) : Int) := by
    rw [bitsLow_cast, ← Int.emod_emod_of_dvd v hd]
    rw [show ((bitsLow W v % 2 ^ U : Nat) : Int) = ((bitsLow W v : Nat) : Int) % 2 ^ U by
      push_cast; ring]
    rw [bitsLow_cast]
  exact_mod_cast h1

theorem bitsLow_mul_two_pow {U : Nat} (v : Int) (sh : Nat) :
    bitsLow U (v * 2 ^ sh) = bitsLow U v * 2 ^ sh % 2 ^ U := by
  have e1 : (v * 2 ^ sh) % 2 ^ U = (v % 2 ^ U * 2 ^ sh) % 2 ^ U := by
    conv_lhs => rw [Int.mul_emod]
    conv_rhs => rw [Int.mul_emod, Int.emod_emod_of_dvd _ dvd_rfl]
  have key : (v * 2 ^ sh) % 2 ^ U = (((bitsLow U v * 2 ^ sh) % 2 ^ U : Nat) : Int) := by
    rw [show (((bitsLow U v * 2 ^ sh) % 2 ^ U : Nat) : Int)
          = ((bitsLow U v : Nat) : Int) * 2 ^ sh % 2 ^ U by push_cast; ring,
      bitsLow_cast, ← e1]
  rw [bitsLow, key, Int.toNat_natCast]

theorem sar_eq_ediv (v : Int) (n : Nat) : sar v n = v / 2 ^ n :=
  Int.fdiv_eq_ediv v (by positivity)

/-- An arithmetic shift of a non-negative value is the logical shift. -/
theorem sar_natCast (n k : Nat) : sar ((n : Nat) : Int) k = ((n >>> k : Nat) : Int) := by
  rw [sar_eq_ediv, Nat.shiftRight_eq_div_pow,
    show ((2:Int) ^ k) = ((2 ^ k : Nat) : Int) by push_cast; ring]
  exact (Int.natCast_div n (2 ^ k)).symm

/-- The low `U` bits of an arithmetic right shift by `n` are the bits
`n, n+1, …` of the low `U + n` bits. -/
theorem bitsLow_sar {U : Nat} (v : Int) (n : Nat) :
    bitsLow U (sar v n) = bitsLow (U + n) v >>> n := by
  rw [sar_eq_ediv]
  have hA : ((bitsLow (U + n) v : Nat) : Int) = v % 2 ^ (U + n) := bitsLow_cast v
  have hv : v = ((bitsLow (U + n) v : Nat) : Int) + (2 ^ U * (v / 2 ^ (U + n))) * 2 ^ n := by
    rw [hA]
    have := Int.ediv_add_emod v (2 ^ (U + n))
    rw [show (2:Int) ^ U * (v / 2 ^ (U + n)) * 2 ^ n
          = 2 ^ (U + n) * (v / 2 ^ (U + n)) by rw [pow_add]; ring]
    omega
  have hdiv : v / 2 ^ n
      = ((bitsLow (U + n) v : Nat) : Int) / 2 ^ n + 2 ^ U * (v / 2 ^ (U + n)) := by
    conv_lhs => rw [hv]
    exact Int.add_mul_ediv_right _ _ (by positivity : (0:Int) < 2 ^ n).ne'
  have hcast : ((bitsLow (U + n) v : Nat) : Int) / 2 ^ n
      = ((bitsLow (U + n) v >>> n : Nat) : Int) := by
    rw [Nat.shiftRight_eq_div_pow]
    push_cast
    ring
  have hlt : bitsLow (U + n) v >>> n < 2 ^ U := by
    rw [Nat.shiftRight_eq_div_pow]
    have h1 := bitsLow_lt (U := U + n) v
    rw [Nat.div_lt_iff_lt_mul (by positivity)]
    calc bitsLow (U + n) v < 2 ^ (U + n) := h1
    _ = 2 ^ U * 2 ^ n := by rw [pow_add]
    _ = 2 ^ U * 2 ^ n := rfl
  rw [bitsLow, hdiv, Int.add_mul_emod_self_left, hcast,
    Int.emod_eq_of_lt (by positivity) (by exact_mod_cast hlt), Int.toNat_natCast]

/-- Writing a signed value representable in `w` bits and reading its `w`-bit
pattern back as two's complement restores the value. -/
theorem toSigned_bitsLow {w : Nat} (hw : 0 < w) (v : Int) (h1 : -(2 ^ (w - 1) : Int) ≤ v)
    (h2 : v < 2 ^ (w - 1)) : toSigned w (bitsLow w v) = v := by
  have hsplit : (2:Int) ^ w = 2 ^ (w - 1) * 2 := by
    rw [← pow_succ]
    congr 1
    omega
  have hc1 : ((2 ^ w : Nat) : Int) = 2 ^ w := by push_cast; ring
  have hc2 : ((2 ^ (w - 1) : Nat) : Int) = 2 ^ (w - 1) := by push_cast; ring
  rcases le_or_lt 0 v with hv | hv
  · have hb : ((bitsLow w v : Nat) : Int) = v := by
      rw [bitsLow_cast, Int.emod_eq_of_lt hv (by omega)]
    rw [toSigned, if_pos (by omega)]
    exact hb
  · have he : v % 2 ^ w = v + 2 ^ w := by
      have h3 : (v + 2 ^ w * 1) % 2 ^ w = v % 2 ^ w := Int.add_mul_emod_self_left v (2 ^ w) 1
      have h4 : (v + 2 ^ w * 1) % 2 ^ w = v + 2 ^ w := by
        rw [Int.emod_eq_of_lt (by omega) (by omega)]
        ring_nf
      omega
    have hb : ((bitsLow w v : Nat) : Int) = v + 2 ^ w := by rw [bitsLow_cast, he]
    rw [toSigned, if_neg (by omega)]
    omega

/-- The two's complement value of a `w`-bit pattern lies in the signed
`w`-bit range. -/
theorem toSigned_bounds {w y : Nat} (hw : 0 < w) (hy : y < 2 ^ w) :
    -(2 ^ (w - 1) : Int) ≤ toSigned w y ∧ toSigned w y < 2 ^ (w - 1) := by
  have hsplit : (2:Int) ^ w = 2 ^ (w - 1) * 2 := by
    rw [← pow_succ]
    congr 1
    omega
  have hc1 : ((2 ^ (w - 1) : Nat) : Int) = 2 ^ (w - 1) := by push_cast; ring
  have hyI : (y : Int) < 2 ^ w := by exact_mod_cast hy
  have hy0 : (0:Int) ≤ (y : Int) := Int.natCast_nonneg y
  have hpos : (0:Int) < 2 ^ (w - 1) := by positivity
  rw [toSigned]
  split
  case isTrue h =>
    have hI : (y : Int) < 2 ^ (w - 1) := by
      have := hc1 ▸ (Nat.cast_lt.mpr h : ((y : Nat) : Int) < ((2 ^ (w - 1) : Nat) : Int))
      omega
    exact ⟨by omega, hI⟩
  case isFalse h =>
    have hI : (2:Int) ^ (w - 1) ≤ (y : Int) := by
      have h2 := Nat.le_of_not_lt h
      have := hc1 ▸ (Nat.cast_le.mpr h2 : ((2 ^ (w - 1) : Nat) : Int) ≤ ((y : Nat) : Int))
      omega
    exact ⟨by omega, by omega⟩

/-- Truncating a two's complement value back to its own width restores the
pattern. -/
theorem bitsLow_toSigned_self {U x : Nat} (hx : x < 2 ^ U) :
    bitsLow U (toSigned U x) = x := by
  have hxI : (x : Int) < 2 ^ U := by exact_mod_cast hx
  rw [toSigned]
  split
  case isTrue h => exact bitsLow_natCast x hx
  case isFalse h =>
    have h1 : ((x : Int) - 2 ^ U) % 2 ^ U = (x : Int) := by
      rw [show (x : Int) - 2 ^ U = (x : Int) + 2 ^ U * (-1) by ring,
        Int.add_mul_emod_self_left, Int.emod_eq_of_lt (Int.natCast_nonneg x) hxI]
    have h2 := bitsLow_cast (U := U) ((x : Int) - 2 ^ U)
    rw [h1] at h2
    exact_mod_cast h2

/-! ## The sign-extending read -/

theorem and_two_pow_ne_zero (m j : Nat) : (m &&& (1 <<< j) != 0) = m.testBit j := by
  rw [Nat.shiftLeft_eq, Nat.one_mul]
  cases hb : m.testBit j
  · have h0 : m &&& 2 ^ j = 0 := by
      apply Nat.eq_of_testBit_eq
      intro i
      simp only [Nat.testBit_and, Nat.testBit_two_pow, Nat.zero_testBit]
      by_cases h : j = i
      · subst h
        simp [hb]
      · simp [h]
    simp [h0]
  · have h1 : (m &&& 2 ^ j).testBit j = true := by
      simp [Nat.testBit_and, Nat.testBit_two_pow, hb]
    have hne : m &&& 2 ^ j ≠ 0 := by
      intro h0
      rw [h0] at h1
      simp [Nat.zero_testBit] at h1
    simp [hne]

theorem msbOffsetGo_eq {T m : Nat} :
    ∀ (fuel off target : Nat), off ≤ target → target < off + fuel →
      (∀ k, off ≤ k → k < target → m.testBit (T - k - 1) = false) →
      m.testBit (T - target - 1) = true →
      msbOffsetGo T m fuel off = target
  | 0, off, target, h1, h2, _, _ => by omega
  | fuel + 1, off, target, h1, h2, hk, ht => by
    unfold msbOffsetGo
    rcases Nat.eq_or_lt_of_le h1 with rfl | hlt
    · rw [if_pos (by rw [and_two_pow_ne_zero]; exact ht)]
    · rw [if_neg (by rw [and_two_pow_ne_zero, hk off (Nat.le_refl off) hlt]; simp)]
      exact msbOffsetGo_eq fuel (off + 1) target (by omega) (by omega)
        (fun k hka hkb => hk k (by omega) hkb) ht

theorem maskMsbOffset_eq {U sh w : Nat} (hw : 0 < w) (hfit : sh + w ≤ U) :
    maskMsbOffset U ((2 ^ w - 1) <<< sh) = U - (sh + w) := by
  apply msbOffsetGo_eq U 0 (U - (sh + w)) (Nat.zero_le _) (by omega)
  · intro k _ hk
    simp only [Nat.testBit_shiftLeft, Nat.testBit_two_pow_sub_one, ge_iff_le]
    by_cases h1 : sh ≤ U - k - 1 <;> simp [h1] <;> omega
  · simp only [Nat.testBit_shiftLeft, Nat.testBit_two_pow_sub_one, ge_iff_le]
    have h1 : sh ≤ U - (U - (sh + w)) - 1 := by omega
    simp [h1]
    omega

/-- Bit `i` of `x + c * 2 ^ U` for `x < 2 ^ U`: the low `U` bits come from
`x`, the rest from `c`. -/
theorem testBit_add_mul_two_pow {x c U : Nat} (hx : x < 2 ^ U) (i : Nat) :
    (x + c * 2 ^ U).testBit i = if i < U then x.testBit i else c.testBit (i - U) := by
  by_cases h : i < U
  · rw [if_pos h, Nat.testBit_to_div_mod, Nat.testBit_to_div_mod]
    have h1 : (x + c * 2 ^ U) / 2 ^ i = x / 2 ^ i + c * 2 ^ (U - i) := by
      rw [show c * 2 ^ U = c * 2 ^ (U - i) * 2 ^ i by
          rw [mul_assoc, ← pow_add]
          congr 2
          omega,
        Nat.add_mul_div_right _ _ (Nat.two_pow_pos i)]
    obtain ⟨k, hk⟩ : (2:Nat) ∣ 2 ^ (U - i) := dvd_pow_self 2 (by omega)
    have h2 : c * 2 ^ (U - i) = 2 * (c * k) := by rw [hk]; ring
    rw [h1]
    have h3 : (x / 2 ^ i + c * 2 ^ (U - i)) % 2 = x / 2 ^ i % 2 := by omega
    rw [h3]
  · rw [if_neg h, Nat.testBit_to_div_mod, Nat.testBit_to_div_mod]
    have h1 : (x + c * 2 ^ U) / 2 ^ i = c / 2 ^ (i - U) := by
      rw [show (2:Nat) ^ i = 2 ^ U * 2 ^ (i - U) by
          rw [← pow_add]
          congr 1
          omega,
        ← Nat.div_div_eq_div_mul]
      congr 1
      rw [Nat.add_mul_div_right _ _ (Nat.two_pow_pos U), Nat.div_eq_of_lt hx, Nat.zero_add]
    rw [h1]

/-- The top bit of a `U`-bit pattern in the upper half of its range. -/
theorem testBit_msb {U x : Nat} (hU : 0 < U) (h1 : 2 ^ (U - 1) ≤ x) (h2 : x < 2 ^ U) :
    x.testBit (U - 1) = true := by
  have h3 : (2:Nat) ^ U = 2 ^ (U - 1) * 2 := by
    rw [← pow_succ]
    congr 1
    omega
  have hdiv : x / 2 ^ (U - 1) = 1 := Nat.div_eq_of_lt_le (by omega) (by omega)
  rw [Nat.testBit_to_div_mod, hdiv]
  rfl

/-- Bit pattern of a `U`-bit value sign-extended into a `P`-bit type by the
value-preserving integer promotion: bit `i` is bit `min i (U - 1)` of the
original pattern (for `i < P`). -/
theorem bitsLow_toSigned_testBit {U P x : Nat} (hU : 0 < U) (hUP : U ≤ P) (hx : x < 2 ^ U)
    (i : Nat) :
    (bitsLow P (toSigned U x)).testBit i = (decide (i < P) && x.testBit (min i (U - 1))) := by
  have hpowN : (2:Nat) ^ U ≤ 2 ^ P := Nat.pow_le_pow_right (by omega) hUP
  have hxP : x < 2 ^ P := by omega
  rw [toSigned]
  split
  case isTrue h =>
    rw [bitsLow_natCast x hxP]
    by_cases hi : i ≤ U - 1
    · have hiP : i < P := by omega
      rw [Nat.min_eq_left hi]
      simp [hiP]
    · rw [Nat.min_eq_right (by omega), testBit_eq_false_of_lt h (by omega),
        testBit_eq_false_of_lt h (by omega)]
      simp
  case isFalse h =>
    have hxlo := Nat.le_of_not_lt h
    have hxI : (x : Int) < 2 ^ U := by exact_mod_cast hx
    have hx0 : (0:Int) ≤ (x : Int) := Int.natCast_nonneg x
    have hpowI : ((2:Int) ^ U) ≤ 2 ^ P := by exact_mod_cast hpowN
    have hmod : ((x : Int) - 2 ^ U) % 2 ^ P = (x : Int) + 2 ^ P - 2 ^ U := by
      rw [show (x : Int) - 2 ^ U = ((x : Int) + 2 ^ P - 2 ^ U) + 2 ^ P * (-1) by ring,
        Int.add_mul_emod_self_left, Int.emod_eq_of_lt (by omega) (by omega)]
    have hN : bitsLow P ((x : Int) - 2 ^ U) = x + 2 ^ P - 2 ^ U := by
      have hcast := bitsLow_cast (U := P) ((x : Int) - 2 ^ U)
      rw [hmod] at hcast
      have hc2 : ((x + 2 ^ P - 2 ^ U : Nat) : Int) = (x : Int) + 2 ^ P - 2 ^ U := by
        rw [Nat.cast_sub (by omega)]
        push_cast
        ring
      omega
    rw [hN]
    have hsplit : (2:Nat) ^ (P - U) * 2 ^ U = 2 ^ P := by
      rw [← pow_add]
      congr 1
      omega
    have h1le : 1 ≤ (2:Nat) ^ (P - U) := Nat.one_le_two_pow
    have hform : x + 2 ^ P - 2 ^ U = x + (2 ^ (P - U) - 1) * 2 ^ U := by
      rw [Nat.sub_mul, hsplit, one_mul]
      omega
    rw [hform, testBit_add_mul_two_pow hx i]
    by_cases hi : i < U
    · rw [if_pos hi, Nat.min_eq_left (by omega)]
      simp [show i < P by omega]
    · rw [if_neg hi, Nat.min_eq_right (by omega), Nat.testBit_two_pow_sub_one,
        testBit_msb hU hxlo hx]
      by_cases hiP : i < P
      · simp [hiP, show i - U < P - U by omega]
      · simp [hiP, show ¬ i - U < P - U by omega]

/-- Sign extension commutes with the promoted `&`: the `&` of two
sign-extended `U`-bit patterns is the sign extension of their `U`-bit
`&`. -/
theorem bitsLow_toSigned_and {U P f m : Nat} (hU : 0 < U) (hUP : U ≤ P)
    (hf : f < 2 ^ U) (hm : m < 2 ^ U) :
    bitsLow P (toSigned U f) &&& bitsLow P (toSigned U m)
      = bitsLow P (toSigned U (f &&& m)) := by
  have hfm : f &&& m < 2 ^ U := Nat.lt_of_le_of_lt Nat.and_le_left hf
  apply Nat.eq_of_testBit_eq
  intro i
  rw [Nat.testBit_and, bitsLow_toSigned_testBit hU hUP hf i,
    bitsLow_toSigned_testBit hU hUP hm i, bitsLow_toSigned_testBit hU hUP hfm i,
    Nat.testBit_and]
  by_cases hiP : i < P <;>
    cases hb1 : f.testBit (min i (U - 1)) <;>
    cases hb2 : m.testBit (min i (U - 1)) <;> simp [hiP, hb1, hb2]

/-- `Field & Mask` for a contiguous mask is the field value placed at the
mask position. -/
theorem and_mask_eq (f sh w : Nat) :
    f &&& ((2 ^ w - 1) <<< sh) = ((f >>> sh) &&& (2 ^ w - 1)) <<< sh := by
  apply Nat.eq_of_testBit_eq
  intro i
  simp only [Nat.testBit_and, Nat.testBit_shiftLeft, Nat.testBit_shiftRight,
    Nat.testBit_two_pow_sub_one, ge_iff_le]
  by_cases h1 : sh ≤ i
  · have h2 : sh + (i - sh) = i := by omega
    rw [h2]
    cases f.testBit i <;> simp [h1]
  · simp [h1]

theorem readU_eq (sh w f : Nat) :
    readU sh ((2 ^ w - 1) <<< sh) f = (f >>> sh) &&& (2 ^ w - 1) := by
  rw [readU, and_mask_eq, Nat.shiftLeft_shiftRight]

theorem sar_toSigned_shift {U w y : Nat} (hw : 0 < w) (hwU : w ≤ U) (hy : y < 2 ^ w) :
    sar (toSigned U (y <<< (U - w))) (U - w) = toSigned w y := by
  rw [sar_eq_ediv, Nat.shiftLeft_eq]
  have hU1 : U - 1 = (w - 1) + (U - w) := by omega
  have hne : ((2:Int) ^ (U - w)) ≠ 0 := (by positivity : (0:Int) < 2 ^ (U - w)).ne'
  by_cases hc : y < 2 ^ (w - 1)
  · have hlt : y * 2 ^ (U - w) < 2 ^ (U - 1) := by
      rw [hU1, pow_add]
      exact Nat.mul_lt_mul_of_lt_of_le hc (Nat.le_refl _) (Nat.two_pow_pos _)
    rw [toSigned, if_pos hlt, toSigned, if_pos hc]
    push_cast
    rw [Int.mul_ediv_cancel _ hne]
  · have hge : ¬ (y * 2 ^ (U - w) < 2 ^ (U - 1)) := by
      have h2 : 2 ^ (w - 1) * 2 ^ (U - w) ≤ y * 2 ^ (U - w) :=
        Nat.mul_le_mul_right _ (by omega)
      rw [hU1, pow_add]
      omega
    rw [toSigned, if_neg hge, toSigned, if_neg hc]
    have h2U : (2:Int) ^ U = 2 ^ w * 2 ^ (U - w) := by
      rw [← pow_add]
      congr 1
      omega
    push_cast
    rw [h2U, show (y : Int) * 2 ^ (U - w) - 2 ^ w * 2 ^ (U - w)
        = ((y : Int) - 2 ^ w) * 2 ^ (U - w) by ring, Int.mul_ediv_cancel _ hne]

/-- Closed form of the signed conversion operator on a well-formed layout.
Because the expression is evaluated in the integer-promoted type, the read
sign-extends the `w`-bit field value only when the underlying type is at
least as wide as `int` (the offset trick then reaches the promoted sign
bit) or when the field ends at the top of its unit (the promotion itself
then sign-extends the masked pattern); otherwise the raw field bits are
returned without sign interpretation. -/
theorem readS_eq {U sh w : Nat} (hw : 0 < w) (hfit : sh + w ≤ U) {f : Nat} (hf : f < 2 ^ U) :
    readS U sh ((2 ^ w - 1) <<< sh) f
      = if intBits ≤ U ∨ sh + w = U
        then toSigned w ((f >>> sh) &&& (2 ^ w - 1))
        else (((f >>> sh) &&& (2 ^ w - 1) : Nat) : Int) := by
  have hU : 0 < U := by omega
  have hm : (2 ^ w - 1) <<< sh < 2 ^ U := by
    have h1 : 2 ^ w - 1 < 2 ^ w := by have := Nat.two_pow_pos w; omega
    exact Nat.lt_of_lt_of_le (shiftLeft_lt h1) (Nat.pow_le_pow_right (by omega) (by omega))
  have hUP : U ≤ promBits U := Nat.le_max_left _ _
  have hy : f &&& ((2 ^ w - 1) <<< sh) < 2 ^ U := Nat.lt_of_le_of_lt Nat.and_le_left hf
  have hru : (f >>> sh) &&& (2 ^ w - 1) < 2 ^ w :=
    Nat.lt_of_le_of_lt Nat.and_le_right (by have := Nat.two_pow_pos w; omega)
  have hyeq : f &&& ((2 ^ w - 1) <<< sh) = ((f >>> sh) &&& (2 ^ w - 1)) <<< sh :=
    and_mask_eq f sh w
  rw [readS, maskMsbOffset_eq hw hfit, bitsLow_toSigned_and hU hUP hf hm,
    show ∀ v : Int, (bitsLow (promBits U) v <<< (U - (sh + w))) % 2 ^ promBits U
        = bitsLow (promBits U) (v * 2 ^ (U - (sh + w))) from
      fun v => by rw [bitsLow_mul_two_pow, Nat.shiftLeft_eq],
    show sh + (U - (sh + w)) = U - w by omega]
  by_cases hint : intBits ≤ U
  · -- no promotion happens: this is the in-type offset computation
    have hPU : promBits U = U := Nat.max_eq_left hint
    have hb : bitsLow U (toSigned U (f &&& ((2 ^ w - 1) <<< sh)) * 2 ^ (U - (sh + w)))
        = ((f &&& ((2 ^ w - 1) <<< sh)) * 2 ^ (U - (sh + w))) % 2 ^ U := by
      rw [bitsLow_mul_two_pow, bitsLow_toSigned_self hy]
    rw [if_pos (Or.inl hint), hPU, hb, ← Nat.shiftLeft_eq, hyeq, Nat.shiftLeft_shiftLeft,
      show sh + (U - (sh + w)) = U - w by omega]
    have hlt2 : ((f >>> sh) &&& (2 ^ w - 1)) <<< (U - w) < 2 ^ U := by
      have h3 : ((f >>> sh) &&& (2 ^ w - 1)) <<< (U - w) < 2 ^ (w + (U - w)) :=
        shiftLeft_lt hru
      rwa [show w + (U - w) = U by omega] at h3
    rw [Nat.mod_eq_of_lt hlt2, sar_toSigned_shift (U := U) hw (by omega) hru]
    obtain ⟨hb1, hb2⟩ := toSigned_bounds hw hru
    have hle : ((2:Int) ^ (w - 1)) ≤ 2 ^ (U - 1) := pow_le_pow_right₀ (by norm_num) (by omega)
    exact toSigned_bitsLow hU _ (by omega) (by omega)
  · have hPU : promBits U = intBits := Nat.max_eq_right (by omega)
    by_cases htop : sh + w = U
    · -- the field ends at the unit's top bit: the promotion sign-extends it
      rw [if_pos (Or.inr htop), hPU, show U - (sh + w) = 0 by omega, pow_zero, mul_one,
        show U - w = sh by omega]
      obtain ⟨hc1, hc2⟩ := toSigned_bounds hU hy
      have hle : ((2:Int) ^ (U - 1)) ≤ 2 ^ (intBits - 1) :=
        pow_le_pow_right₀ (by norm_num) (by omega)
      rw [toSigned_bitsLow (show 0 < intBits by decide)
        (toSigned U (f &&& ((2 ^ w - 1) <<< sh))) (by omega) (by omega)]
      have hsar : sar (toSigned U (((f >>> sh) &&& (2 ^ w - 1)) <<< sh)) sh
          = toSigned w ((f >>> sh) &&& (2 ^ w - 1)) := by
        have h4 := sar_toSigned_shift hw (show w ≤ U by omega) hru
        rwa [show U - w = sh by omega] at h4
      rw [hyeq, hsar]
      obtain ⟨hb1, hb2⟩ := toSigned_bounds hw hru
      have hle2 : ((2:Int) ^ (w - 1)) ≤ 2 ^ (U - 1) :=
        pow_le_pow_right₀ (by norm_num) (by omega)
      exact toSigned_bitsLow hU _ (by omega) (by omega)
    · -- a narrow field below the unit top: the promoted value stays
      -- non-negative, so no sign extension takes place
      rw [if_neg (fun hcon => hcon.elim hint htop), hPU]
      have hylt1 : f &&& ((2 ^ w - 1) <<< sh) < 2 ^ (sh + w) := by
        rw [hyeq]
        have h3 : ((f >>> sh) &&& (2 ^ w - 1)) <<< sh < 2 ^ (w + sh) := shiftLeft_lt hru
        rwa [show w + sh = sh + w by omega] at h3
      have hpowU1 : (2:Nat) ^ (sh + w) ≤ 2 ^ (U - 1) := Nat.pow_le_pow_right (by omega) (by omega)
      have e1 : toSigned U (f &&& ((2 ^ w - 1) <<< sh)) * (2:Int) ^ (U - (sh + w))
          = (((f &&& ((2 ^ w - 1) <<< sh)) <<< (U - (sh + w)) : Nat) : Int) := by
        rw [toSigned, if_pos (by omega),
          show (f &&& ((2 ^ w - 1) <<< sh)) <<< (U - (sh + w))
              = (f &&& ((2 ^ w - 1) <<< sh)) * 2 ^ (U - (sh + w)) from Nat.shiftLeft_eq _ _]
        push_cast
        ring
      rw [e1]
      have hshlt : (f &&& ((2 ^ w - 1) <<< sh)) <<< (U - (sh + w)) < 2 ^ U := by
        have h3 : (f &&& ((2 ^ w - 1) <<< sh)) <<< (U - (sh + w))
            < 2 ^ (sh + w + (U - (sh + w))) := shiftLeft_lt hylt1
        rwa [show sh + w + (U - (sh + w)) = U by omega] at h3
      have hUhalf : (2:Nat) ^ U ≤ 2 ^ (intBits - 1) := Nat.pow_le_pow_right (by omega) (by omega)
      have hhalf : (2:Nat) ^ (intBits - 1) ≤ 2 ^ intBits := Nat.pow_le_pow_right (by omega) (by omega)
      have hpoww : (2:Nat) ^ w ≤ 2 ^ (U - 1) := Nat.pow_le_pow_right (by omega) (by omega)
      have hpowU : (2:Nat) ^ (U - 1) ≤ 2 ^ U := Nat.pow_le_pow_right (by omega) (by omega)
      rw [bitsLow_natCast (U := intBits) ((f &&& ((2 ^ w - 1) <<< sh)) <<< (U - (sh + w)))
          (by omega),
        show toSigned intBits ((f &&& ((2 ^ w - 1) <<< sh)) <<< (U - (sh + w)))
            = (((f &&& ((2 ^ w - 1) <<< sh)) <<< (U - (sh + w)) : Nat) : Int) from by
          rw [toSigned, if_pos (by omega)],
        sar_natCast,
        show (f &&& ((2 ^ w - 1) <<< sh)) <<< (U - (sh + w)) >>> (U - w)
            = (f >>> sh) &&& (2 ^ w - 1) from by
          rw [hyeq, Nat.shiftLeft_shiftLeft, show sh + (U - (sh + w)) = U - w by omega,
            Nat.shiftLeft_shiftRight],
        bitsLow_natCast (U := U) ((f >>> sh) &&& (2 ^ w - 1)) (by omega),
        show toSigned U ((f >>> sh) &&& (2 ^ w - 1))
            = (((f >>> sh) &&& (2 ^ w - 1) : Nat) : Int) from by
          rw [toSigned, if_pos (by omega)]]

/-! ## Round trip through one field -/

/-- After `operator=`, the bits of the field inside the unit are exactly the
written (shifted, masked) pattern. -/
theorem assignOp_and_mask {U sh m f : Nat} (hU : 0 < U) (hm : m < 2 ^ U) (rhs : Int) :
    assignOp U sh m f rhs &&& m = (bitsLow U rhs <<< sh) &&& m := by
  have hlt : (f &&& complU U m) ||| ((bitsLow U rhs <<< sh) &&& m) < 2 ^ U :=
    Nat.or_lt_two_pow (Nat.lt_of_le_of_lt Nat.and_le_right (complU_lt hU hm))
      (Nat.lt_of_le_of_lt Nat.and_le_right hm)
  rw [assignOp, Nat.mod_eq_of_lt hlt]
  apply Nat.eq_of_testBit_eq
  intro i
  simp only [Nat.testBit_or, Nat.testBit_and, complU_testBit hm]
  cases f.testBit i <;> cases (bitsLow U rhs <<< sh).testBit i <;> cases m.testBit i <;>
    cases hd : decide (i < U) <;> simp

theorem and_mask_of_lt {v w : Nat} (sh : Nat) (hv : v < 2 ^ w) :
    (v <<< sh) &&& ((2 ^ w - 1) <<< sh) = v <<< sh := by
  apply Nat.eq_of_testBit_eq
  intro i
  simp only [Nat.testBit_and, Nat.testBit_shiftLeft, Nat.testBit_two_pow_sub_one, ge_iff_le]
  by_cases h1 : sh ≤ i
  · simp only [h1, decide_True, Bool.true_and]
    cases hb : v.testBit (i - sh)
    · simp
    · have h2 : i - sh < w := lt_of_testBit_true hb hv
      simp [h2]
  · simp [h1]

theorem shiftRight_and_eq (X sh w : Nat) :
    (X >>> sh) &&& (2 ^ w - 1) = (X &&& ((2 ^ w - 1) <<< sh)) >>> sh := by
  apply Nat.eq_of_testBit_eq
  intro j
  simp only [Nat.testBit_and, Nat.testBit_shiftRight, Nat.testBit_shiftLeft,
    Nat.testBit_two_pow_sub_one, ge_iff_le]
  have h1 : sh ≤ sh + j := Nat.le_add_right _ _
  have h2 : sh + j - sh = j := by omega
  simp [h1, h2]

theorem shiftLeft_and_shiftLeft (x sh w : Nat) :
    (x <<< sh) &&& ((2 ^ w - 1) <<< sh) = (x &&& (2 ^ w - 1)) <<< sh := by
  apply Nat.eq_of_testBit_eq
  intro i
  simp only [Nat.testBit_and, Nat.testBit_shiftLeft, Nat.testBit_two_pow_sub_one, ge_iff_le]
  by_cases h1 : sh ≤ i <;> simp [h1]

theorem bitsLow_and_low {U w : Nat} (v : Int) (h : w ≤ U) :
    bitsLow U v &&& (2 ^ w - 1) = bitsLow w v := by
  rw [Nat.and_pow_two_sub_one_eq_mod, ← bitsLow_mod v h]

/-- Unsigned round trip: writing a value representable in the field width
and reading it back through the unsigned conversion returns the value. -/
theorem readU_assignOp {U sh w f : Nat} (hU : 0 < U) (hfit : sh + w ≤ U)
    (v : Nat) (hv : v < 2 ^ w) :
    readU sh ((2 ^ w - 1) <<< sh) (assignOp U sh ((2 ^ w - 1) <<< sh) f (v : Int)) = v := by
  have hm : (2 ^ w - 1) <<< sh < 2 ^ U := by
    have h1 : 2 ^ w - 1 < 2 ^ w := by have := Nat.two_pow_pos w; omega
    exact Nat.lt_of_lt_of_le (shiftLeft_lt h1) (Nat.pow_le_pow_right (by omega) (by omega))
  have hvU : v < 2 ^ U := Nat.lt_of_lt_of_le hv (Nat.pow_le_pow_right (by omega) (by omega))
  rw [readU, assignOp_and_mask hU hm, bitsLow_natCast v hvU, and_mask_of_lt sh hv,
    Nat.shiftLeft_shiftRight]

/-! ## The pattern of the value returned by the conversion operator -/

theorem mask_testBit (sh w i : Nat) :
    ((2 ^ w - 1) <<< sh).testBit i = (decide (sh ≤ i) && decide (i - sh < w)) := by
  simp [Nat.testBit_shiftLeft, Nat.testBit_two_pow_sub_one]

theorem mask_lt {U sh w : Nat} (hfit : sh + w ≤ U) : (2 ^ w - 1) <<< sh < 2 ^ U := by
  have h1 : 2 ^ w - 1 < 2 ^ w := by have := Nat.two_pow_pos w; omega
  exact Nat.lt_of_lt_of_le (shiftLeft_lt h1) (Nat.pow_le_pow_right (by omega) (by omega))

/-- The low `w` bits of the two's complement pattern of a sign-extended
`w`-bit value are the original `w`-bit pattern. -/
theorem bitsLow_toSigned_low {U w y : Nat} (hy : y < 2 ^ w) (hwU : w ≤ U) :
    bitsLow U (toSigned w y) &&& (2 ^ w - 1) = y := by
  have hpow : (2:Nat) ^ w ≤ 2 ^ U := Nat.pow_le_pow_right (by omega) hwU
  rw [Nat.and_pow_two_sub_one_eq_mod]
  unfold toSigned
  split
  case isTrue h =>
    rw [bitsLow_natCast y (by omega)]
    exact Nat.mod_eq_of_lt hy
  case isFalse h =>
    have hyInt : (y : Int) < 2 ^ w := by exact_mod_cast hy
    have hwleI : ((2:Int) ^ w) ≤ 2 ^ U := by exact_mod_cast hpow
    have he : ((y : Int) - 2 ^ w) % 2 ^ U = (y : Int) - 2 ^ w + 2 ^ U := by
      have h3 := Int.add_mul_emod_self_left ((y:Int) - 2 ^ w) (2 ^ U) 1
      have h4 : ((y:Int) - 2 ^ w + 2 ^ U * 1) % 2 ^ U = (y:Int) - 2 ^ w + 2 ^ U := by
        rw [Int.mul_one]
        apply Int.emod_eq_of_lt
        · have : (0:Int) ≤ (y:Int) := Int.natCast_nonneg y
          omega
        · omega
      omega
    have hb : ((bitsLow U ((y:Int) - 2 ^ w) : Nat) : Int) = (y:Int) - 2 ^ w + 2 ^ U := by
      rw [bitsLow_cast, he]
    have hc1 : ((2 ^ U : Nat) : Int) = 2 ^ U := by push_cast; ring
    have hc2 : ((2 ^ w : Nat) : Int) = 2 ^ w := by push_cast; ring
    have hbn : bitsLow U ((y:Int) - 2 ^ w) = y + 2 ^ U - 2 ^ w := by omega
    rw [hbn]
    have hdvd : 2 ^ w ∣ 2 ^ U - 2 ^ w := Nat.dvd_sub' (pow_dvd_pow 2 hwU) dvd_rfl
    obtain ⟨k, hk⟩ := hdvd
    rw [show y + 2 ^ U - 2 ^ w = y + 2 ^ w * k by omega, Nat.add_mul_mod_self_left,
      Nat.mod_eq_of_lt hy]

/-- The low `w` bits of the pattern of the value read by the conversion
operator are the raw field bits, for signed and unsigned types alike —
whether or not the promoted signed read sign-extends them. -/
theorem readField_pattern {U sh w f : Nat} (sgn : Bool) (hw : 0 < w) (hfit : sh + w ≤ U)
    (hf : f < 2 ^ U) :
    bitsLow U (readField sgn U sh ((2 ^ w - 1) <<< sh) f) &&& (2 ^ w - 1)
      = (f >>> sh) &&& (2 ^ w - 1) := by
  have hy : (f >>> sh) &&& (2 ^ w - 1) < 2 ^ w :=
    Nat.lt_of_le_of_lt Nat.and_le_right (by have := Nat.two_pow_pos w; omega)
  cases sgn
  · rw [readField, if_neg (by simp), readU_eq]
    rw [bitsLow_natCast _ (Nat.lt_of_lt_of_le hy (Nat.pow_le_pow_right (by omega) (by omega)))]
    rw [Nat.and_pow_two_sub_one_eq_mod, Nat.and_pow_two_sub_one_eq_mod, Nat.mod_mod_of_dvd]
    exact dvd_rfl
  · rw [readField, if_pos rfl, readS_eq hw hfit hf]
    split
    · exact bitsLow_toSigned_low hy (by omega)
    · rw [bitsLow_natCast _ (Nat.lt_of_lt_of_le hy (Nat.pow_le_pow_right (by omega) (by omega)))]
      rw [Nat.and_pow_two_sub_one_eq_mod, Nat.and_pow_two_sub_one_eq_mod, Nat.mod_mod_of_dvd]
      exact dvd_rfl

theorem readField_testBit {U sh w f : Nat} (sgn : Bool) (hw : 0 < w) (hfit : sh + w ≤ U)
    (hf : f < 2 ^ U) {j : Nat} (hj : j < w) :
    (bitsLow U (readField sgn U sh ((2 ^ w - 1) <<< sh) f)).testBit j
      = f.testBit (sh + j) := by
  have h := congrArg (fun x => x.testBit j) (readField_pattern (f := f) sgn hw hfit hf)
  simp only [Nat.testBit_and, Nat.testBit_shiftRight, Nat.testBit_two_pow_sub_one, hj,
    decide_True, Bool.and_true] at h
  exact h

/-! ## Equivalence of the compound operators with read-modify-write -/

theorem orShape_lt {U m f x : Nat} (hU : 0 < U) (hm : m < 2 ^ U) :
    (f &&& complU U m) ||| (x &&& m) < 2 ^ U :=
  Nat.or_lt_two_pow (Nat.lt_of_le_of_lt Nat.and_le_right (complU_lt hU hm))
    (Nat.lt_of_le_of_lt Nat.and_le_right hm)

/-- `v << Shift & Mask` computed on the promoted value and
`(UnderlyingType)v << Shift & Mask` computed on the truncated value agree:
the arithmetic compound assignments are `operator=` applied to the
combined value. -/
theorem rmwShape_eq_assignOp {U sh m f : Nat} (hm : m < 2 ^ U) (v : Int) :
    rmwShape U sh m f v = assignOp U sh m f v := by
  suffices h : bitsLow U (v * 2 ^ sh) &&& m = (bitsLow U v <<< sh) &&& m by
    rw [rmwShape, assignOp, h]
  rw [bitsLow_mul_two_pow, ← Nat.shiftLeft_eq]
  apply Nat.eq_of_testBit_eq
  intro i
  simp only [Nat.testBit_and, Nat.testBit_mod_two_pow]
  cases hmi : m.testBit i
  · simp
  · have hiU : i < U := lt_of_testBit_true hmi hm
    simp [hiU]

/-- `operator&=` is `operator=` applied to the bitwise conjunction of the
current field value and the operand (in the `U`-bit logical type). -/
theorem andAssign_eq_rmw {U sh w f : Nat} (sgn : Bool) (hw : 0 < w)
    (hfit : sh + w ≤ U) (hf : f < 2 ^ U) (rhs : Int) :
    andAssign U sh ((2 ^ w - 1) <<< sh) f rhs
      = assignOp U sh ((2 ^ w - 1) <<< sh) f
          ((bitsLow U (readField sgn U sh ((2 ^ w - 1) <<< sh) f) &&& bitsLow U rhs : Nat) :
            Int) := by
  have hU : 0 < U := by omega
  have hm : (2 ^ w - 1) <<< sh < 2 ^ U := mask_lt hfit
  have hvaf : ∀ j, j < w →
      (bitsLow U (readField sgn U sh ((2 ^ w - 1) <<< sh) f)).testBit j
        = f.testBit (sh + j) := fun j hj => readField_testBit sgn hw hfit hf hj
  generalize hva : bitsLow U (readField sgn U sh ((2 ^ w - 1) <<< sh) f) = va at *
  have hvb : va &&& bitsLow U rhs < 2 ^ U :=
    Nat.lt_of_le_of_lt Nat.and_le_left (hva ▸ bitsLow_lt _)
  rw [andAssign, assignOp, bitsLow_natCast _ hvb,
    Nat.mod_eq_of_lt (Nat.lt_of_le_of_lt Nat.and_le_left hf),
    Nat.mod_eq_of_lt (orShape_lt hU hm)]
  apply Nat.eq_of_testBit_eq
  intro i
  simp only [Nat.testBit_and, Nat.testBit_or, complU_testBit hm, Nat.testBit_shiftLeft,
    Nat.testBit_two_pow_sub_one, ge_iff_le]
  by_cases h1 : sh ≤ i
  · by_cases h2 : i - sh < w
    · have hiU : i < U := by omega
      have hfaf : va.testBit (i - sh) = f.testBit i := by
        rw [hvaf (i - sh) h2, show sh + (i - sh) = i by omega]
      rw [hfaf]
      cases f.testBit i <;> cases (bitsLow U rhs).testBit (i - sh) <;> simp [h1, h2, hiU]
    · by_cases hiU : i < U
      · cases f.testBit i <;> cases (bitsLow U rhs).testBit (i - sh) <;> simp [h1, h2, hiU]
      · have hfi : f.testBit i = false := testBit_eq_false_of_lt hf (by omega)
        simp [hiU, hfi] <;> (intros; omega)
  · by_cases hiU : i < U
    · simp [h1, hiU]
    · have hfi : f.testBit i = false := testBit_eq_false_of_lt hf (by omega)
      simp [hiU, hfi] <;> (intros; omega)

/-- `operator|=` is `operator=` applied to the bitwise disjunction of the
current field value and the operand (in the `U`-bit logical type). -/
theorem orAssign_eq_rmw {U sh w f : Nat} (sgn : Bool) (hw : 0 < w)
    (hfit : sh + w ≤ U) (hf : f < 2 ^ U) (rhs : Int) :
    orAssign U sh ((2 ^ w - 1) <<< sh) f rhs
      = assignOp U sh ((2 ^ w - 1) <<< sh) f
          ((bitsLow U (readField sgn U sh ((2 ^ w - 1) <<< sh) f) ||| bitsLow U rhs : Nat) :
            Int) := by
  have hU : 0 < U := by omega
  have hm : (2 ^ w - 1) <<< sh < 2 ^ U := mask_lt hfit
  have hvaf : ∀ j, j < w →
      (bitsLow U (readField sgn U sh ((2 ^ w - 1) <<< sh) f)).testBit j
        = f.testBit (sh + j) := fun j hj => readField_testBit sgn hw hfit hf hj
  generalize hva : bitsLow U (readField sgn U sh ((2 ^ w - 1) <<< sh) f) = va at *
  have hvb : va ||| bitsLow U rhs < 2 ^ U :=
    Nat.or_lt_two_pow (hva ▸ bitsLow_lt _) (bitsLow_lt _)
  rw [orAssign, assignOp, bitsLow_natCast _ hvb,
    Nat.mod_eq_of_lt
      (Nat.or_lt_two_pow hf (Nat.lt_of_le_of_lt Nat.and_le_right hm)),
    Nat.mod_eq_of_lt (orShape_lt hU hm)]
  apply Nat.eq_of_testBit_eq
  intro i
  simp only [Nat.testBit_and, Nat.testBit_or, complU_testBit hm, Nat.testBit_shiftLeft,
    Nat.testBit_two_pow_sub_one, ge_iff_le]
  by_cases h1 : sh ≤ i
  · by_cases h2 : i - sh < w
    · have hiU : i < U := by omega
      have hfaf : va.testBit (i - sh) = f.testBit i := by
        rw [hvaf (i - sh) h2, show sh + (i - sh) = i by omega]
      rw [hfaf]
      cases f.testBit i <;> cases (bitsLow U rhs).testBit (i - sh) <;> simp [h1, h2, hiU]
    · by_cases hiU : i < U
      · cases f.testBit i <;> cases (bitsLow U rhs).testBit (i - sh) <;> simp [h1, h2, hiU]
      · have hfi : f.testBit i = false := testBit_eq_false_of_lt hf (by omega)
        simp [h1, h2, hiU, hfi] <;> (intros; omega)
  · by_cases hiU : i < U
    · simp [h1, hiU]
    · have hfi : f.testBit i = false := testBit_eq_false_of_lt hf (by omega)
      simp [h1, hiU, hfi] <;> (intros; omega)

/-- `operator^=` is `operator=` applied to the bitwise exclusive or of the
current field value and the operand (in the `U`-bit logical type). -/
theorem xorAssign_eq_rmw {U sh w f : Nat} (sgn : Bool) (hw : 0 < w)
    (hfit : sh + w ≤ U) (hf : f < 2 ^ U) (rhs : Int) :
    xorAssign U sh ((2 ^ w - 1) <<< sh) f rhs
      = assignOp U sh ((2 ^ w - 1) <<< sh) f
          ((bitsLow U (readField sgn U sh ((2 ^ w - 1) <<< sh) f) ^^^ bitsLow U rhs : Nat) :
            Int) := by
  have hU : 0 < U := by omega
  have hm : (2 ^ w - 1) <<< sh < 2 ^ U := mask_lt hfit
  have hvaf : ∀ j, j < w →
      (bitsLow U (readField sgn U sh ((2 ^ w - 1) <<< sh) f)).testBit j
        = f.testBit (sh + j) := fun j hj => readField_testBit sgn hw hfit hf hj
  generalize hva : bitsLow U (readField sgn U sh ((2 ^ w - 1) <<< sh) f) = va at *
  have hvb : va ^^^ bitsLow U rhs < 2 ^ U :=
    Nat.xor_lt_two_pow (hva ▸ bitsLow_lt _) (bitsLow_lt _)
  rw [xorAssign, assignOp, bitsLow_natCast _ hvb,
    Nat.mod_eq_of_lt (orShape_lt hU hm), Nat.mod_eq_of_lt (orShape_lt hU hm)]
  apply Nat.eq_of_testBit_eq
  intro i
  simp only [Nat.testBit_and, Nat.testBit_or, Nat.testBit_xor, complU_testBit hm,
    Nat.testBit_shiftLeft, Nat.testBit_two_pow_sub_one, ge_iff_le]
  by_cases h1 : sh ≤ i
  · by_cases h2 : i - sh < w
    · have hiU : i < U := by omega
      have hfaf : va.testBit (i - sh) = f.testBit i := by
        rw [hvaf (i - sh) h2, show sh + (i - sh) = i by omega]
      rw [hfaf]
      cases f.testBit i <;> cases (bitsLow U rhs).testBit (i - sh) <;> simp [h1, h2, hiU]
    · by_cases hiU : i < U
      · cases f.testBit i <;> cases (bitsLow U rhs).testBit (i - sh) <;> simp [h1, h2, hiU]
      · simp [h1, h2, hiU] <;> (intros; omega)
  · by_cases hiU : i < U
    · simp [h1, hiU]
    · simp [h1, hiU] <;> (intros; omega)

theorem bitsLow_natCast_mod {U : Nat} (n : Nat) : bitsLow U (n : Int) = n % 2 ^ U := by
  have h := bitsLow_cast (U := U) (n : Int)
  rw [show ((n : Int)) % 2 ^ U = ((n % 2 ^ U : Nat) : Int) by push_cast; ring] at h
  exact_mod_cast h

/-- `operator<<=` (raw masked pattern) is `operator=` applied to the shifted
raw field value. -/
theorem shlAssign_eq_raw {U sh w f : Nat} (hfit : sh + w ≤ U) (rhs : Nat) :
    shlAssign U sh ((2 ^ w - 1) <<< sh) f rhs
      = assignOp U sh ((2 ^ w - 1) <<< sh) f
          ((readU sh ((2 ^ w - 1) <<< sh) f <<< rhs : Nat) : Int) := by
  suffices h : ((f &&& ((2 ^ w - 1) <<< sh)) <<< rhs) &&& ((2 ^ w - 1) <<< sh)
      = (((((f >>> sh) &&& (2 ^ w - 1)) <<< rhs) % 2 ^ U) <<< sh) &&& ((2 ^ w - 1) <<< sh) by
    rw [shlAssign, assignOp, bitsLow_natCast_mod, readU_eq, h]
  apply Nat.eq_of_testBit_eq
  intro i
  simp only [Nat.testBit_and, Nat.testBit_shiftLeft, Nat.testBit_shiftRight,
    Nat.testBit_mod_two_pow, Nat.testBit_two_pow_sub_one, ge_iff_le]
  by_cases h1 : sh ≤ i
  · by_cases h2 : i - sh < w
    · by_cases h3 : rhs ≤ i - sh
      · have e1 : sh + (i - sh - rhs) = i - rhs := by omega
        have e2 : i - rhs - sh = i - sh - rhs := by omega
        have g1 : rhs ≤ i := by omega
        have g2 : sh ≤ i - rhs := by omega
        have g3 : i - sh < U := by omega
        rw [e1, e2]
        simp [h1, h2, h3, g1, g2, g3] <;> (intros; omega)
      · by_cases h4 : rhs ≤ i
        · have g5 : ¬ sh ≤ i - rhs := by omega
          simp [h3, g5]
        · simp [h3, h4]
    · simp [h2]
  · simp [h1]

/-- `operator<<=` is also `operator=` applied to the shifted conversion
value: shifting left then re-masking hides the bits in which the promoted
conversion and the raw pattern could differ. -/
theorem shlAssign_eq_signed {U sh w f : Nat} (hw : 0 < w) (hfit : sh + w ≤ U)
    (hf : f < 2 ^ U) (rhs : Nat) :
    shlAssign U sh ((2 ^ w - 1) <<< sh) f rhs
      = assignOp U sh ((2 ^ w - 1) <<< sh) f
          (readS U sh ((2 ^ w - 1) <<< sh) f * 2 ^ rhs) := by
  have hvaf : ∀ j, j < w →
      (bitsLow U (readS U sh ((2 ^ w - 1) <<< sh) f)).testBit j = f.testBit (sh + j) :=
    fun j hj => readField_testBit true hw hfit hf hj
  rw [shlAssign, assignOp, bitsLow_mul_two_pow, ← Nat.shiftLeft_eq]
  suffices h : ((f &&& ((2 ^ w - 1) <<< sh)) <<< rhs) &&& ((2 ^ w - 1) <<< sh)
      = (((bitsLow U (readS U sh ((2 ^ w - 1) <<< sh) f) <<< rhs) % 2 ^ U) <<< sh)
          &&& ((2 ^ w - 1) <<< sh) by
    rw [h]
  generalize hva : bitsLow U (readS U sh ((2 ^ w - 1) <<< sh) f) = va at *
  apply Nat.eq_of_testBit_eq
  intro i
  simp only [Nat.testBit_and, Nat.testBit_shiftLeft, Nat.testBit_mod_two_pow,
    Nat.testBit_two_pow_sub_one, ge_iff_le]
  by_cases h1 : sh ≤ i
  · by_cases h2 : i - sh < w
    · by_cases h3 : rhs ≤ i - sh
      · have hfv : va.testBit (i - sh - rhs) = f.testBit (i - rhs) := by
          rw [hvaf (i - sh - rhs) (by omega), show sh + (i - sh - rhs) = i - rhs by omega]
        have e : i - rhs - sh = i - sh - rhs := by omega
        have g1 : rhs ≤ i := by omega
        have g2 : sh ≤ i - rhs := by omega
        have g3 : i - sh < U := by omega
        have g4 : i - rhs - sh < w := by omega
        rw [e, hfv]
        simp [h1, h2, h3, g1, g2, g3, g4] <;> (intros; omega)
      · by_cases h4 : rhs ≤ i
        · have g5 : ¬ sh ≤ i - rhs := by omega
          simp [h3, g5]
        · simp [h3, h4]
    · simp [h2]
  · simp [h1]

/-- `operator>>=` on an unsigned type is `operator=` applied to the
logically shifted raw field value. -/
theorem shrAssignU_eq_raw {U sh w f : Nat} (hfit : sh + w ≤ U) (rhs : Nat) :
    shrAssignU U sh ((2 ^ w - 1) <<< sh) f rhs
      = assignOp U sh ((2 ^ w - 1) <<< sh) f
          ((readU sh ((2 ^ w - 1) <<< sh) f >>> rhs : Nat) : Int) := by
  have hy : (f >>> sh) &&& (2 ^ w - 1) < 2 ^ w :=
    Nat.lt_of_le_of_lt Nat.and_le_right (by have := Nat.two_pow_pos w; omega)
  have hyU : ((f >>> sh) &&& (2 ^ w - 1)) >>> rhs < 2 ^ U := by
    have h1 : ((f >>> sh) &&& (2 ^ w - 1)) >>> rhs ≤ (f >>> sh) &&& (2 ^ w - 1) := by
      rw [Nat.shiftRight_eq_div_pow]
      exact Nat.div_le_self _ _
    have h2 : (2:Nat) ^ w ≤ 2 ^ U := Nat.pow_le_pow_right (by omega) (by omega)
    omega
  suffices h : ((f &&& ((2 ^ w - 1) <<< sh)) >>> rhs) &&& ((2 ^ w - 1) <<< sh)
      = ((((f >>> sh) &&& (2 ^ w - 1)) >>> rhs) <<< sh) &&& ((2 ^ w - 1) <<< sh) by
    rw [shrAssignU, assignOp, readU_eq, bitsLow_natCast _ hyU, h]
  apply Nat.eq_of_testBit_eq
  intro i
  simp only [Nat.testBit_and, Nat.testBit_shiftLeft, Nat.testBit_shiftRight,
    Nat.testBit_two_pow_sub_one, ge_iff_le]
  by_cases h1 : sh ≤ i
  · by_cases h2 : i - sh < w
    · have e1 : sh + (rhs + (i - sh)) = rhs + i := by omega
      have e2 : rhs + i - sh = rhs + (i - sh) := by omega
      have g1 : sh ≤ rhs + i := by omega
      rw [e1]
      simp [h1, h2, g1, e2] <;> (intros; omega)
    · simp [h2]
  · simp [h1]

/-- `operator>>=` on a signed type is `operator=` applied to the
arithmetically shifted conversion value: the promoted `<< Shift` never
overflows the promoted width for a well-formed layout, and the bits the
truncation could change are removed by the mask. -/
theorem shrAssignS_eq_sar {U sh w f : Nat} (hw : 0 < w) (hfit : sh + w ≤ U)
    (hf : f < 2 ^ U) (rhs : Nat) :
    shrAssignS U sh ((2 ^ w - 1) <<< sh) f rhs
      = assignOp U sh ((2 ^ w - 1) <<< sh) f
          (sar (readS U sh ((2 ^ w - 1) <<< sh) f) rhs) := by
  have hU : 0 < U := by omega
  have hru : (f >>> sh) &&& (2 ^ w - 1) < 2 ^ w :=
    Nat.lt_of_le_of_lt Nat.and_le_right (by have := Nat.two_pow_pos w; omega)
  have hUP : U ≤ promBits U := Nat.le_max_left _ _
  have hcollapse : toSigned (promBits U)
      (bitsLow (promBits U) (readS U sh ((2 ^ w - 1) <<< sh) f * 2 ^ sh))
      = readS U sh ((2 ^ w - 1) <<< sh) f * 2 ^ sh := by
    have hkey : -((2:Int) ^ (promBits U - 1)) ≤ readS U sh ((2 ^ w - 1) <<< sh) f * 2 ^ sh
        ∧ readS U sh ((2 ^ w - 1) <<< sh) f * 2 ^ sh < 2 ^ (promBits U - 1) := by
      have hshpos : (0:Int) < 2 ^ sh := by positivity
      have hp1 : ((2:Int) ^ (w - 1)) * 2 ^ sh = 2 ^ (w - 1 + sh) := by rw [pow_add]
      have hp2 : ((2:Int) ^ (w - 1 + sh)) ≤ 2 ^ (U - 1) :=
        pow_le_pow_right₀ (by norm_num) (by omega)
      have hp3 : ((2:Int) ^ (U - 1)) ≤ 2 ^ (promBits U - 1) :=
        pow_le_pow_right₀ (by norm_num) (by omega)
      rw [readS_eq hw hfit hf]
      by_cases hext : intBits ≤ U ∨ sh + w = U
      · rw [if_pos hext]
        obtain ⟨hb1, hb2⟩ := toSigned_bounds hw hru
        have hlo := mul_le_mul_of_nonneg_right hb1 (le_of_lt hshpos)
        have hhi := mul_lt_mul_of_pos_right hb2 hshpos
        rw [neg_mul, hp1] at hlo
        rw [hp1] at hhi
        constructor <;> linarith
      · rw [if_neg hext]
        have hwU1 : U < intBits := by
          rcases Nat.lt_or_ge U intBits with h | h
          · exact h
          · exact absurd (Or.inl h) hext
        have hq0 : (0:Int) ≤ (((f >>> sh) &&& (2 ^ w - 1) : Nat) : Int) :=
          Int.natCast_nonneg _
        have hqw : (((f >>> sh) &&& (2 ^ w - 1) : Nat) : Int) < 2 ^ w := by
          exact_mod_cast hru
        have hhi := mul_lt_mul_of_pos_right hqw hshpos
        have hp4 : ((2:Int) ^ w) * 2 ^ sh = 2 ^ (w + sh) := by rw [pow_add]
        have hp5 : ((2:Int) ^ (w + sh)) ≤ 2 ^ (promBits U - 1) := by
          apply pow_le_pow_right₀ (by norm_num)
          have h6 : intBits ≤ promBits U := Nat.le_max_right _ _
          omega
        rw [hp4] at hhi
        have hlo := mul_le_mul_of_nonneg_right hq0 (le_of_lt hshpos)
        have hpos1 : (0:Int) < 2 ^ (promBits U - 1) := by positivity
        constructor <;> linarith
    exact toSigned_bitsLow (by omega) _ hkey.1 hkey.2
  rw [shrAssignS, hcollapse, assignOp, bitsLow_sar, bitsLow_sar, bitsLow_mul_two_pow,
    ← Nat.shiftLeft_eq]
  suffices h : ((((bitsLow (U + rhs) (readS U sh ((2 ^ w - 1) <<< sh) f)) <<< sh)
        % 2 ^ (U + rhs)) >>> rhs) &&& ((2 ^ w - 1) <<< sh)
      = (((bitsLow (U + rhs) (readS U sh ((2 ^ w - 1) <<< sh) f)) >>> rhs) <<< sh)
          &&& ((2 ^ w - 1) <<< sh) by
    rw [h]
  generalize bitsLow (U + rhs) (readS U sh ((2 ^ w - 1) <<< sh) f) = P
  apply Nat.eq_of_testBit_eq
  intro i
  simp only [Nat.testBit_and, Nat.testBit_shiftLeft, Nat.testBit_shiftRight,
    Nat.testBit_mod_two_pow, Nat.testBit_two_pow_sub_one, ge_iff_le]
  by_cases h1 : sh ≤ i
  · by_cases h2 : i - sh < w
    · have g1 : rhs + i < U + rhs := by omega
      have g2 : sh ≤ rhs + i := by omega
      have e : rhs + i - sh = rhs + (i - sh) := by omega
      simp [h1, h2, g1, g2, e]
    · simp [h2]
  · simp [h1]

/-! ## Storage-level facts -/

theorem getD_set_ne {l : List Nat} {a b : Nat} (h : a ≠ b) (v : Nat) :
    (l.set a v).getD b 0 = l.getD b 0 := by
  simp [List.getD_eq_getElem?_getD, List.getElem?_set_ne h]

theorem getD_set_self {l : List Nat} {a : Nat} (h : a < l.length) (v : Nat) :
    (l.set a v).getD a 0 = v := by
  simp [List.getD_eq_getElem?_getD, List.getElem?_set_self h]

theorem unitAt_lt_dataSize {U : Nat} {ws : List Nat} {i : Nat} (hU : 0 < U)
    (hi : i < ws.length) (hw : ws.getD i 0 ≠ 0) : unitAt U ws i < dataSize U ws := by
  have h1 : fieldBegin U ws i + ws.getD i 0 ≤ fieldBegin U ws ws.length :=
    fieldBeginList_advance hU ws 0 i ws.length hw hi (Nat.le_refl _)
  have h2 : ws.getD i 0 ≥ 1 := by omega
  unfold unitAt dataSize
  have h4 : (fieldBegin U ws i + U) / U ≤ (fieldBegin U ws ws.length + U - 1) / U :=
    Nat.div_le_div_right (by omega)
  rw [Nat.add_div_right _ hU] at h4
  omega

theorem maskAt_lt {U : Nat} {ws : List Nat} {i : Nat} (hU : 0 < U) (hi : i < ws.length)
    (hw : 0 < ws.getD i 0) : maskAt U ws i < 2 ^ U :=
  maskOf_lt (shiftAt_add_min_le hU hi hw)

/-- Two distinct non-zero-width fields placed in the same storage unit have
disjoint masks. -/
theorem maskAt_disjoint_lt {U : Nat} {ws : List Nat} {i j : Nat} (hU : 0 < U)
    (hij : i < j) (hj : j < ws.length) (hwi : ws.getD i 0 ≠ 0) (hwj : ws.getD j 0 ≠ 0)
    (hunit : unitAt U ws i = unitAt U ws j) :
    maskAt U ws i &&& maskAt U ws j = 0 := by
  have hi : i < ws.length := Nat.lt_trans hij hj
  have hadv : fieldBegin U ws i + ws.getD i 0 ≤ fieldBegin U ws j :=
    fieldBeginList_advance hU ws 0 i j hwi hij (Nat.le_of_lt hj)
  have hfi : shiftAt U ws i + min (ws.getD i 0) U ≤ U := shiftAt_add_min_le hU hi (by omega)
  have hfj : shiftAt U ws j + min (ws.getD j 0) U ≤ U := shiftAt_add_min_le hU hj (by omega)
  have hbi : fieldBegin U ws i = U * unitAt U ws i + shiftAt U ws i :=
    (Nat.div_add_mod _ _).symm
  have hbj : fieldBegin U ws j = U * unitAt U ws j + shiftAt U ws j :=
    (Nat.div_add_mod _ _).symm
  rw [hunit] at hbi
  have hmini : min (ws.getD i 0) U ≤ ws.getD i 0 := Nat.min_le_left _ _
  rw [maskAt, maskAt, maskOf_eq hfi, maskOf_eq hfj]
  apply Nat.eq_of_testBit_eq
  intro p
  simp only [Nat.testBit_and, mask_testBit, Nat.zero_testBit]
  have key : ¬(shiftAt U ws i ≤ p ∧ p - shiftAt U ws i < min (ws.getD i 0) U
      ∧ shiftAt U ws j ≤ p ∧ p - shiftAt U ws j < min (ws.getD j 0) U) := by
    rintro ⟨c1, c2, c3, c4⟩
    omega
  rw [← Bool.not_eq_true]
  intro hb
  simp only [Bool.and_eq_true, decide_eq_true_eq] at hb
  exact key ⟨hb.1.1, hb.1.2, hb.2.1, hb.2.2⟩

theorem maskAt_disjoint {U : Nat} {ws : List Nat} {i j : Nat} (hU : 0 < U)
    (hi : i < ws.length) (hj : j < ws.length) (hne : i ≠ j)
    (hwi : ws.getD i 0 ≠ 0) (hwj : ws.getD j 0 ≠ 0)
    (hunit : unitAt U ws i = unitAt U ws j) :
    maskAt U ws i &&& maskAt U ws j = 0 := by
  rcases Nat.lt_or_ge i j with h | h
  · exact maskAt_disjoint_lt hU h hj hwi hwj hunit
  · rw [Nat.and_comm]
    exact maskAt_disjoint_lt hU (by omega) hi hwj hwi hunit.symm

/-- Any masked update of field `i`'s storage unit leaves the bits of every
other non-zero-width field `j` unchanged, in the same unit or not. -/
theorem update_frame {U : Nat} {ws : List Nat} {i j : Nat} (hU : 0 < U)
    (hi : i < ws.length) (hj : j < ws.length) (hne : i ≠ j)
    (hwi : ws.getD i 0 ≠ 0) (hwj : ws.getD j 0 ≠ 0)
    (data : List Nat) (g : Nat)
    (hg : MaskedUpdate U (maskAt U ws i) (data.getD (unitAt U ws i) 0) g) :
    (data.set (unitAt U ws i) g).getD (unitAt U ws j) 0 &&& maskAt U ws j
      = data.getD (unitAt U ws j) 0 &&& maskAt U ws j := by
  by_cases hu : unitAt U ws i = unitAt U ws j
  · by_cases hlen : unitAt U ws i < data.length
    · rw [← hu, getD_set_self hlen]
      exact and_eq_of_maskedUpdate (maskAt_lt hU hi (by omega)) (maskAt_lt hU hj (by omega))
        hg (maskAt_disjoint hU hi hj hne hwi hwj hu)
    · rw [List.set_eq_of_length_le (by omega)]
  · rw [getD_set_ne hu]

theorem assignOp_lt {U sh m f : Nat} (rhs : Int) : assignOp U sh m f rhs < 2 ^ U :=
  Nat.mod_lt _ (Nat.two_pow_pos U)

/-- A zero-mask `operator=` (as applied for zero-width entries of the
default-burn loop) does not change a `U`-bit unit. -/
theorem assignOp_zero_mask {U sh f : Nat} (hf : f < 2 ^ U) (rhs : Int) :
    assignOp U sh 0 f rhs = f := by
  rw [assignOp]
  have h1 : complU U 0 = 2 ^ U - 1 := by simp [complU]
  rw [h1]
  have h2 : f &&& (2 ^ U - 1) = f := by
    rw [Nat.and_pow_two_sub_one_eq_mod, Nat.mod_eq_of_lt hf]
  have h3 : (bitsLow U rhs <<< sh) &&& 0 = 0 := by simp
  rw [h2, h3]
  simp [Nat.mod_eq_of_lt hf]

theorem cursorAfter_take_succ {U : Nat} {ws : List Nat} {i : Nat} (c : Nat)
    (hi : i < ws.length) :
    cursorAfter U (ws.take (i + 1)) c
      = cursorStep U (cursorAfter U (ws.take i) c) (ws.getD i 0) := by
  rw [cursorAfter, cursorAfter, List.take_succ, List.getElem?_eq_getElem hi]
  rw [show (some ws[i]).toList = [ws[i]] from rfl, List.foldl_append, List.foldl_cons,
    List.foldl_nil, List.getD_eq_getElem ws 0 hi]

/-! ## The default-burn loop of the `Data` initializer -/

theorem getD_set_getD (l : List Nat) (a b : Nat) :
    (l.set a (l.getD a 0)).getD b 0 = l.getD b 0 := by
  by_cases hab : a = b
  · subst hab
    by_cases hl : a < l.length
    · rw [getD_set_self hl]
    · rw [List.set_eq_of_length_le (by omega)]
  · rw [getD_set_ne hab]

theorem burn_invariant {U : Nat} (ws : List Nat) (ds : List Int) (hU : 0 < U) :
    ∀ k, k ≤ ws.length →
      ((List.range k).foldl (fun F i => setField U ws F i (ds.getD i 0))
          (List.replicate (dataSize U ws) 0)).length = dataSize U ws
      ∧ (∀ u, ((List.range k).foldl (fun F i => setField U ws F i (ds.getD i 0))
          (List.replicate (dataSize U ws) 0)).getD u 0 < 2 ^ U)
      ∧ (∀ i, i < k → ws.getD i 0 ≠ 0 →
          ((List.range k).foldl (fun F i => setField U ws F i (ds.getD i 0))
              (List.replicate (dataSize U ws) 0)).getD (unitAt U ws i) 0 &&& maskAt U ws i
            = (bitsLow U (ds.getD i 0) <<< shiftAt U ws i) &&& maskAt U ws i)
  | 0, _ => by
    refine ⟨by simp, fun u => ?_, fun i hi => by omega⟩
    simp only [List.range_zero, List.foldl_nil]
    rw [List.getD_eq_getElem?_getD, List.getElem?_replicate]
    split <;> simp [Nat.two_pow_pos]
  | k + 1, hk => by
    obtain ⟨ihlen, ihbound, ihbits⟩ := burn_invariant ws ds hU k (by omega)
    rw [List.range_succ, List.foldl_append, List.foldl_cons, List.foldl_nil]
    set Fk : List Nat := (List.range k).foldl (fun F i => setField U ws F i (ds.getD i 0))
      (List.replicate (dataSize U ws) 0) with hFk
    have hklen : k < ws.length := by omega
    refine ⟨by rw [setField, List.length_set]; exact ihlen, fun u => ?_, fun i hi hwi => ?_⟩
    · rw [setField]
      by_cases hu : u = unitAt U ws k
      · rw [hu]
        by_cases hl : unitAt U ws k < Fk.length
        · rw [getD_set_self hl]
          exact assignOp_lt _
        · rw [List.set_eq_of_length_le (by omega)]
          exact ihbound _
      · rw [getD_set_ne (fun h => hu h.symm)]
        exact ihbound u
    · rcases Nat.lt_or_ge i k with hik | hik
      · by_cases hwk : ws.getD k 0 = 0
        · have hmask0 : maskAt U ws k = 0 := by
            rw [maskAt, hwk, maskOf_zero_width]
          have hsame : setField U ws Fk k (ds.getD k 0)
              = Fk.set (unitAt U ws k) (Fk.getD (unitAt U ws k) 0) := by
            rw [setField, hmask0, assignOp_zero_mask (ihbound _)]
          rw [hsame, getD_set_getD]
          exact ihbits i hik hwi
        · have hframe := update_frame hU hklen (Nat.lt_trans hik hklen)
            (by omega) hwk hwi Fk
            (assignOp U (shiftAt U ws k) (maskAt U ws k)
              (Fk.getD (unitAt U ws k) 0) (ds.getD k 0))
            (maskedUpdate_or_shape hU (maskAt_lt hU hklen (by omega)))
          rw [setField, hframe]
          exact ihbits i hik hwi
      · have hik2 : i = k := by omega
        subst hik2
        have hl : unitAt U ws i < Fk.length := by
          rw [ihlen]
          exact unitAt_lt_dataSize hU hklen hwi
        rw [setField, getD_set_self hl]
        exact assignOp_and_mask hU (maskAt_lt hU hklen (by omega)) _

theorem initData_length {U : Nat} {ws : List Nat} {ds : List Int} (hU : 0 < U) :
    (initData U ws ds).length = dataSize U ws :=
  (burn_invariant ws ds hU ws.length (Nat.le_refl _)).1

/-- Every unit of the freshly burned storage is a `U`-bit pattern. -/
theorem initData_bound {U : Nat} {ws : List Nat} {ds : List Int} (hU : 0 < U) (u : Nat) :
    (initData U ws ds).getD u 0 < 2 ^ U :=
  (burn_invariant ws ds hU ws.length (Nat.le_refl _)).2.1 u

theorem initData_field_bits {U : Nat} {ws : List Nat} (ds : List Int) {i : Nat}
    (hU : 0 < U) (hi : i < ws.length) (hw : ws.getD i 0 ≠ 0) :
    (initData U ws ds).getD (unitAt U ws i) 0 &&& maskAt U ws i
      = (bitsLow U (ds.getD i 0) <<< shiftAt U ws i) &&& maskAt U ws i :=
  (burn_invariant ws ds hU ws.length (Nat.le_refl _)).2.2 i hi hw

theorem getU_initData {U : Nat} {ws : List Nat} {ds : List Int} {i : Nat}
    (hU : 0 < U) (hi : i < ws.length) (hw : 0 < ws.getD i 0) :
    getU U ws (initData U ws ds) i = bitsLow (min (ws.getD i 0) U) (ds.getD i 0) := by
  have hfit := shiftAt_add_min_le hU hi hw
  have hbits := initData_field_bits ds hU hi (by omega)
  rw [getU, readU, hbits, maskAt, maskOf_eq hfit, shiftLeft_and_shiftLeft,
    Nat.shiftLeft_shiftRight, bitsLow_and_low _ (by omega)]

/-- The signed read of a freshly constructed storage: the default reduced
to the effective width, sign-extended exactly when the promoted conversion
sign-extends. -/
theorem getS_initData {U : Nat} {ws : List Nat} {ds : List Int} {i : Nat}
    (hU : 0 < U) (hi : i < ws.length) (hw : 0 < ws.getD i 0) :
    getS U ws (initData U ws ds) i
      = if intBits ≤ U ∨ shiftAt U ws i + min (ws.getD i 0) U = U
        then toSigned (min (ws.getD i 0) U) (bitsLow (min (ws.getD i 0) U) (ds.getD i 0))
        else ((bitsLow (min (ws.getD i 0) U) (ds.getD i 0) : Nat) : Int) := by
  have hfit := shiftAt_add_min_le hU hi hw
  have hmin : 0 < min (ws.getD i 0) U := by
    have := Nat.min_le_left (ws.getD i 0) U
    omega
  have hbits := initData_field_bits ds hU hi (by omega)
  have hflt : (initData U ws ds).getD (unitAt U ws i) 0 < 2 ^ U := initData_bound hU _
  have hpat : ((initData U ws ds).getD (unitAt U ws i) 0 >>> shiftAt U ws i)
      &&& (2 ^ min (ws.getD i 0) U - 1) = bitsLow (min (ws.getD i 0) U) (ds.getD i 0) := by
    rw [maskAt, maskOf_eq hfit] at hbits
    rw [shiftRight_and_eq, hbits, shiftLeft_and_shiftLeft, Nat.shiftLeft_shiftRight,
      bitsLow_and_low _ (by omega)]
  rw [getS, maskAt, maskOf_eq hfit, readS_eq hmin hfit hflt, hpat]

theorem readU_assignOp_general {U sh w f : Nat} (hU : 0 < U) (hfit : sh + w ≤ U) (v : Int) :
    readU sh ((2 ^ w - 1) <<< sh) (assignOp U sh ((2 ^ w - 1) <<< sh) f v) = bitsLow w v := by
  rw [readU, assignOp_and_mask hU (mask_lt hfit), shiftLeft_and_shiftLeft,
    Nat.shiftLeft_shiftRight, bitsLow_and_low v (by omega)]

/-- The signed read after `operator=`: the low `w` bits of the written
value, sign-extended exactly when the promoted conversion sign-extends. -/
theorem readS_assignOp_general {U sh w f : Nat} (hU : 0 < U) (hw : 0 < w) (hfit : sh + w ≤ U)
    (v : Int) :
    readS U sh ((2 ^ w - 1) <<< sh) (assignOp U sh ((2 ^ w - 1) <<< sh) f v)
      = if intBits ≤ U ∨ sh + w = U
        then toSigned w (bitsLow w v)
        else ((bitsLow w v : Nat) : Int) := by
  have hpat : (assignOp U sh ((2 ^ w - 1) <<< sh) f v >>> sh) &&& (2 ^ w - 1)
      = bitsLow w v := by
    rw [shiftRight_and_eq, assignOp_and_mask hU (mask_lt hfit), shiftLeft_and_shiftLeft,
      Nat.shiftLeft_shiftRight, bitsLow_and_low v (by omega)]
  rw [readS_eq hw hfit (assignOp_lt _), hpat]

/-! ## Claim theorems -/

/-- C2: for two distinct fields of non-zero width, their masks are disjoint
whenever they share a storage unit; any masked update of one field's unit
(and every mutating operator is such an update, as the third conjunct
checks for all eleven operators) leaves the raw bit pattern of the other
field unchanged, in the same unit or a different one. -/
theorem C2_disjoint_frame (U : Nat) (ws : List Nat) (i j : Nat) (hU : 0 < U)
    (hi : i < ws.length) (hj : j < ws.length) (hne : i ≠ j)
    (hwi : ws.getD i 0 ≠ 0) (hwj : ws.getD j 0 ≠ 0) :
    (unitAt U ws i = unitAt U ws j → maskAt U ws i &&& maskAt U ws j = 0)
    ∧ (∀ (data : List Nat) (g : Nat),
        MaskedUpdate U (maskAt U ws i) (data.getD (unitAt U ws i) 0) g →
        (data.set (unitAt U ws i) g).getD (unitAt U ws j) 0 &&& maskAt U ws j
          = data.getD (unitAt U ws j) 0 &&& maskAt U ws j)
    ∧ (∀ (f : Nat) (rhs : Int) (rhsN : Nat) (sgn : Bool), f < 2 ^ U →
        MaskedUpdate U (maskAt U ws i) f
            (assignOp U (shiftAt U ws i) (maskAt U ws i) f rhs)
        ∧ MaskedUpdate U (maskAt U ws i) f
            (addAssign sgn U (shiftAt U ws i) (maskAt U ws i) f rhs)
        ∧ MaskedUpdate U (maskAt U ws i) f
            (subAssign sgn U (shiftAt U ws i) (maskAt U ws i) f rhs)
        ∧ MaskedUpdate U (maskAt U ws i) f
            (mulAssign sgn U (shiftAt U ws i) (maskAt U ws i) f rhs)
        ∧ MaskedUpdate U (maskAt U ws i) f
            (divAssign sgn U (shiftAt U ws i) (maskAt U ws i) f rhs)
        ∧ MaskedUpdate U (maskAt U ws i) f
            (modAssign sgn U (shiftAt U ws i) (maskAt U ws i) f rhs)
        ∧ MaskedUpdate U (maskAt U ws i) f
            (andAssign U (shiftAt U ws i) (maskAt U ws i) f rhs)
        ∧ MaskedUpdate U (maskAt U ws i) f
            (orAssign U (shiftAt U ws i) (maskAt U ws i) f rhs)
        ∧ MaskedUpdate U (maskAt U ws i) f
            (xorAssign U (shiftAt U ws i) (maskAt U ws i) f rhs)
        ∧ MaskedUpdate U (maskAt U ws i) f
            (shlAssign U (shiftAt U ws i) (maskAt U ws i) f rhsN)
        ∧ MaskedUpdate U (maskAt U ws i) f
            (shrAssign sgn U (shiftAt U ws i) (maskAt U ws i) f rhsN)) := by
  have hm : maskAt U ws i < 2 ^ U := maskAt_lt hU hi (by omega)
  refine ⟨maskAt_disjoint hU hi hj hne hwi hwj,
    fun data g hg => update_frame hU hi hj hne hwi hwj data g hg,
    fun f rhs rhsN sgn hf => ?_⟩
  refine ⟨maskedUpdate_or_shape hU hm, maskedUpdate_or_shape hU hm,
    maskedUpdate_or_shape hU hm, maskedUpdate_or_shape hU hm,
    maskedUpdate_or_shape hU hm, maskedUpdate_or_shape hU hm,
    maskedUpdate_andAssign_shape hm hf, maskedUpdate_orAssign_shape hm hf,
    maskedUpdate_or_shape hU hm, maskedUpdate_or_shape hU hm, ?_⟩
  cases sgn
  · exact maskedUpdate_or_shape hU hm
  · exact maskedUpdate_or_shape hU hm

/-- C3: a field that would straddle a unit boundary at the current cursor
begins at the next unit boundary instead (otherwise at the cursor); the
total storage size is the ceiling of the final bit cursor divided by `U`;
and the 3-, 1-, 5-bit scenario over an 8-bit unit allocates exactly 2
units whose contents after writing 2, 0, 10 are `[0b010, 0b01010]`. -/
theorem C3_alignment (U : Nat) (ws : List Nat) (i : Nat) (hU : 0 < U) (hi : i < ws.length) :
    (toSkipToNextUnit U (cursorAfter U (ws.take i) 0) (ws.getD i 0) = true →
        fieldBegin U ws i = alignUp U (cursorAfter U (ws.take i) 0))
    ∧ (toSkipToNextUnit U (cursorAfter U (ws.take i) 0) (ws.getD i 0) = false →
        fieldBegin U ws i = cursorAfter U (ws.take i) 0)
    ∧ (cursorAfter U ws 0 ≤ dataSize U ws * U ∧ dataSize U ws * U < cursorAfter U ws 0 + U)
    ∧ (dataSize 8 [3, 1, 5] = 2
        ∧ setField 8 [3, 1, 5] (setField 8 [3, 1, 5] (setField 8 [3, 1, 5]
            (List.replicate (dataSize 8 [3, 1, 5]) 0) 0 2) 1 0) 2 10 = [2, 10]) := by
  have hbeg := fieldBegin_eq_beginStep (U := U) hi
  have hfin : fieldBegin U ws ws.length = cursorAfter U ws 0 := fieldBegin_length_eq ws
  refine ⟨fun hskip => ?_, fun hskip => ?_, ?_, by decide, by decide⟩
  · rw [hbeg, beginStep, if_pos hskip]
  · rw [hbeg, beginStep, if_neg (by rw [hskip]; simp)]
  · have h1 : dataSize U ws * U = alignUp U (cursorAfter U ws 0) := by
      rw [dataSize, hfin, alignUp]
    rw [h1]
    exact ⟨le_alignUp hU _, alignUp_lt hU _⟩

theorem beginStep_mod_aligned {U c w : Nat} (h : c % U = 0) : beginStep U c w % U = 0 := by
  unfold beginStep
  split
  · exact alignUp_mod c
  · exact h

/-- C4: a zero-width descriptor advances the cursor exactly to the next
multiple of `U` (a multiple of `U` at distance less than `U`), records its
own begin at the old cursor while reserving no bits, leaves the cursor
unchanged when it is already unit-aligned, and makes the following field
begin unit-aligned. -/
theorem C4_padding (U : Nat) (ws : List Nat) (i : Nat) (hU : 0 < U)
    (hi : i < ws.length) (hz : ws.getD i 0 = 0) :
    (cursorAfter U (ws.take (i + 1)) 0 = alignUp U (cursorAfter U (ws.take i) 0))
    ∧ (alignUp U (cursorAfter U (ws.take i) 0) % U = 0
        ∧ cursorAfter U (ws.take i) 0 ≤ alignUp U (cursorAfter U (ws.take i) 0)
        ∧ alignUp U (cursorAfter U (ws.take i) 0) < cursorAfter U (ws.take i) 0 + U)
    ∧ fieldBegin U ws i = cursorAfter U (ws.take i) 0
    ∧ (cursorAfter U (ws.take i) 0 % U = 0 →
        cursorAfter U (ws.take (i + 1)) 0 = cursorAfter U (ws.take i) 0)
    ∧ (i + 1 < ws.length → fieldBegin U ws (i + 1) % U = 0) := by
  have hstep : cursorAfter U (ws.take (i + 1)) 0
      = cursorStep U (cursorAfter U (ws.take i) 0) (ws.getD i 0) :=
    cursorAfter_take_succ 0 hi
  rw [hz, cursorStep_zero_width hU] at hstep
  refine ⟨hstep, ⟨alignUp_mod _, le_alignUp hU _, alignUp_lt hU _⟩, ?_, fun ha => ?_, fun hi2 => ?_⟩
  · rw [fieldBegin_eq_beginStep hi, hz, beginStep_zero_width hU]
  · rw [hstep, alignUp_of_aligned hU ha]
  · rw [fieldBegin_eq_beginStep hi2]
    exact beginStep_mod_aligned (by rw [hstep]; exact alignUp_mod _)

/-- C6, counterexample to the claim as stated: with the default
(permissive) oversized-field policy a single field of width 9 over an
8-bit unit is accepted, but it does not lie within a single storage unit —
exactly the configuration the opt-in
`ORDERED_BIT_FIELD_DISALLOW_OVERSIZED_FIELD` assert would have rejected. -/
theorem C6_as_stated_fails :
    (0:Nat) < 9 ∧ fieldBegin 8 [9] 0 / 8 ≠ (fieldBegin 8 [9] 0 + 9 - 1) / 8
    ∧ disallowOversizedOk 8 [9] = false :=
  ⟨by decide, by decide, by decide⟩

/-- C6 (amended: the single-unit property holds for fields of width at most
`U`, hence for every field once the opt-in oversized-field rejection
policy accepts the descriptor list): begin positions are non-decreasing,
the bit ranges of non-zero-width fields are pairwise disjoint, every field
of width `0 < w ≤ U` lies within a single storage unit, and under the
rejection policy's assert this covers every non-zero-width field. -/
theorem C6_layout_invariants (U : Nat) (ws : List Nat) (hU : 0 < U) :
    (∀ i j, i ≤ j → j ≤ ws.length → fieldBegin U ws i ≤ fieldBegin U ws j)
    ∧ (∀ i j, i < j → j < ws.length → ws.getD i 0 ≠ 0 → ws.getD j 0 ≠ 0 →
        fieldBegin U ws i + ws.getD i 0 ≤ fieldBegin U ws j)
    ∧ (∀ i, i < ws.length → 0 < ws.getD i 0 → ws.getD i 0 ≤ U →
        fieldBegin U ws i / U = (fieldBegin U ws i + ws.getD i 0 - 1) / U)
    ∧ (disallowOversizedOk U ws = true →
        ∀ i, i < ws.length → 0 < ws.getD i 0 →
          fieldBegin U ws i / U = (fieldBegin U ws i + ws.getD i 0 - 1) / U) := by
  have hsingle : ∀ i, i < ws.length → 0 < ws.getD i 0 → ws.getD i 0 ≤ U →
      fieldBegin U ws i / U = (fieldBegin U ws i + ws.getD i 0 - 1) / U := by
    intro i hi hw hwU
    have hfit := shiftAt_add_min_le hU hi hw
    rw [Nat.min_eq_left hwU] at hfit
    have hd := Nat.div_add_mod (fieldBegin U ws i) U
    have hsh : fieldBegin U ws i % U = shiftAt U ws i := rfl
    rw [hsh] at hd
    have he : fieldBegin U ws i + ws.getD i 0 - 1
        = U * (fieldBegin U ws i / U) + (shiftAt U ws i + ws.getD i 0 - 1) := by omega
    rw [he, Nat.mul_add_div hU,
      Nat.div_eq_of_lt (show shiftAt U ws i + ws.getD i 0 - 1 < U by omega), Nat.add_zero]
  refine ⟨fun i j hij hj => fieldBeginList_mono hU ws 0 i j hij hj,
    fun i j hij hj hwi hwj => fieldBeginList_advance hU ws 0 i j hwi hij (Nat.le_of_lt hj),
    hsingle, fun hpol i hi hw => ?_⟩
  have hmem : ws.getD i 0 ∈ ws := by
    rw [List.getD_eq_getElem?_getD, List.getElem?_eq_getElem hi]
    exact List.getElem_mem hi
  have hle : ws.getD i 0 ≤ U := by
    have h2 := List.all_eq_true.mp hpol _ hmem
    simpa using h2
  exact hsingle i hi hw hle

/-- C7, counterexample to the claim as stated: `operator/=` divides the
conversion-operator value, not the sign-extended field value.  Over a
signed 8-bit unit the first 4-bit field of `[4, 4]` with raw pattern 13
(sign-extended value -3) divided by 2 stores 6 (= 13 / 2 on the promoted,
non-sign-extended conversion result), while the claimed sign-extended
read-modify-write would store 15 (= -3 trunc-div 2 = -1, re-masked). -/
theorem C7_as_stated_fails :
    divAssign true 8 (shiftAt 8 [4, 4] 0) (maskAt 8 [4, 4] 0) 13 2 = 6
    ∧ rmwShape 8 (shiftAt 8 [4, 4] 0) (maskAt 8 [4, 4] 0) 13
        (Int.tdiv (toSigned 4 (readU (shiftAt 8 [4, 4] 0) (maskAt 8 [4, 4] 0) 13)) 2) = 15
    ∧ (6 : Nat) ≠ 15 :=
  ⟨by decide, by decide, by decide⟩

/-- C7 (amended: the value each compound assignment reads, combines and
writes back is the conversion operator's result `readField`, which — being
evaluated in the integer-promoted type — coincides with the sign-extended
field value exactly when the underlying type is at least as wide as `int`
or the field ends at the top of its unit, as the last conjunct states):
every arithmetic and bitwise compound assignment is `operator=` applied to
the combination of the field's current conversion value and the right-hand
operand: native integer arithmetic for `+ - * / %` (with C++'s truncating
division and remainder) and `U`-bit pattern operations for `& | ^`, the
result re-masked into the field's bits by the write rule. -/
theorem C7_compound_ops (U : Nat) (ws : List Nat) (i : Nat) (sgn : Bool) (f : Nat) (rhs : Int)
    (hU : 0 < U) (hi : i < ws.length) (hw : 0 < ws.getD i 0) (hf : f < 2 ^ U) :
    (addAssign sgn U (shiftAt U ws i) (maskAt U ws i) f rhs
        = assignOp U (shiftAt U ws i) (maskAt U ws i) f
            (readField sgn U (shiftAt U ws i) (maskAt U ws i) f + rhs))
    ∧ (subAssign sgn U (shiftAt U ws i) (maskAt U ws i) f rhs
        = assignOp U (shiftAt U ws i) (maskAt U ws i) f
            (readField sgn U (shiftAt U ws i) (maskAt U ws i) f - rhs))
    ∧ (mulAssign sgn U (shiftAt U ws i) (maskAt U ws i) f rhs
        = assignOp U (shiftAt U ws i) (maskAt U ws i) f
            (readField sgn U (shiftAt U ws i) (maskAt U ws i) f * rhs))
    ∧ (divAssign sgn U (shiftAt U ws i) (maskAt U ws i) f rhs
        = assignOp U (shiftAt U ws i) (maskAt U ws i) f
            (Int.tdiv (readField sgn U (shiftAt U ws i) (maskAt U ws i) f) rhs))
    ∧ (modAssign sgn U (shiftAt U ws i) (maskAt U ws i) f rhs
        = assignOp U (shiftAt U ws i) (maskAt U ws i) f
            (Int.tmod (readField sgn U (shiftAt U ws i) (maskAt U ws i) f) rhs))
    ∧ (andAssign U (shiftAt U ws i) (maskAt U ws i) f rhs
        = assignOp U (shiftAt U ws i) (maskAt U ws i) f
            ((bitsLow U (readField sgn U (shiftAt U ws i) (maskAt U ws i) f)
                &&& bitsLow U rhs : Nat) : Int))
    ∧ (orAssign U (shiftAt U ws i) (maskAt U ws i) f rhs
        = assignOp U (shiftAt U ws i) (maskAt U ws i) f
            ((bitsLow U (readField sgn U (shiftAt U ws i) (maskAt U ws i) f)
                ||| bitsLow U rhs : Nat) : Int))
    ∧ (xorAssign U (shiftAt U ws i) (maskAt U ws i) f rhs
        = assignOp U (shiftAt U ws i) (maskAt U ws i) f
            ((bitsLow U (readField sgn U (shiftAt U ws i) (maskAt U ws i) f)
                ^^^ bitsLow U rhs : Nat) : Int))
    ∧ (intBits ≤ U ∨ shiftAt U ws i + min (ws.getD i 0) U = U →
        readField true U (shiftAt U ws i) (maskAt U ws i) f
          = toSigned (min (ws.getD i 0) U)
              (readU (shiftAt U ws i) (maskAt U ws i) f)) := by
  have hm : maskAt U ws i < 2 ^ U := maskAt_lt hU hi hw
  have hmin : 0 < min (ws.getD i 0) U := by
    have h1 := Nat.min_le_left (ws.getD i 0) U
    have h2 := Nat.min_le_right (ws.getD i 0) U
    omega
  have hfit := shiftAt_add_min_le hU hi hw
  have hmeq : maskAt U ws i = (2 ^ min (ws.getD i 0) U - 1) <<< shiftAt U ws i := by
    rw [maskAt]
    exact maskOf_eq hfit
  refine ⟨rmwShape_eq_assignOp hm _, rmwShape_eq_assignOp hm _, rmwShape_eq_assignOp hm _,
    rmwShape_eq_assignOp hm _, rmwShape_eq_assignOp hm _, ?_, ?_, ?_, fun hext => ?_⟩
  · rw [hmeq]
    exact andAssign_eq_rmw sgn hmin hfit hf rhs
  · rw [hmeq]
    exact orAssign_eq_rmw sgn hmin hfit hf rhs
  · rw [hmeq]
    exact xorAssign_eq_rmw sgn hmin hfit hf rhs
  · rw [readField, if_pos rfl, hmeq, readS_eq hmin hfit hf, if_pos hext, readU_eq]

/-- C8, counterexample to the claim as stated: over a signed 8-bit unit
the first 4-bit field of `[4, 4]` with raw pattern 13 holds the signed
value -3, but `>>= 1` stores 6 — the arithmetic shift of the promoted,
non-sign-extended conversion value 13 — while shifting "through the
sign-extended value" would store 14 (= -2 re-masked). -/
theorem C8_as_stated_fails :
    shrAssign true 8 (shiftAt 8 [4, 4] 0) (maskAt 8 [4, 4] 0) 13 1 = 6
    ∧ assignOp 8 (shiftAt 8 [4, 4] 0) (maskAt 8 [4, 4] 0) 13
        (sar (toSigned 4 (readU (shiftAt 8 [4, 4] 0) (maskAt 8 [4, 4] 0) 13)) 1) = 14
    ∧ (6 : Nat) ≠ 14 :=
  ⟨by decide, by decide, by decide⟩

/-- C8 (amended: the signed `>>=` shifts the conversion-operator value
arithmetically; by the last conjunct that value is the sign-extended field
value exactly when the underlying type is at least as wide as `int` or the
field ends at the top of its unit, so the claimed arithmetic-shift
behaviour holds precisely there): the shift assignments are `operator=`
applied to a shifted value — the raw masked field value shifted logically
for `<<=` and unsigned `>>=`, the conversion value shifted arithmetically
for signed `>>=` (`operator<<=`, implemented on the raw pattern for both
signednesses, also coincides with the conversion-value view after
re-masking); bits outside the mask are untouched by the shared write
rule. -/
theorem C8_shift_ops (U : Nat) (ws : List Nat) (i : Nat) (f : Nat) (rhs : Nat)
    (hU : 0 < U) (hi : i < ws.length) (hw : 0 < ws.getD i 0) (hf : f < 2 ^ U) :
    (shlAssign U (shiftAt U ws i) (maskAt U ws i) f rhs
        = assignOp U (shiftAt U ws i) (maskAt U ws i) f
            ((readU (shiftAt U ws i) (maskAt U ws i) f <<< rhs : Nat) : Int))
    ∧ (shlAssign U (shiftAt U ws i) (maskAt U ws i) f rhs
        = assignOp U (shiftAt U ws i) (maskAt U ws i) f
            (readS U (shiftAt U ws i) (maskAt U ws i) f * 2 ^ rhs))
    ∧ (shrAssign false U (shiftAt U ws i) (maskAt U ws i) f rhs
        = assignOp U (shiftAt U ws i) (maskAt U ws i) f
            ((readU (shiftAt U ws i) (maskAt U ws i) f >>> rhs : Nat) : Int))
    ∧ (shrAssign true U (shiftAt U ws i) (maskAt U ws i) f rhs
        = assignOp U (shiftAt U ws i) (maskAt U ws i) f
            (sar (readS U (shiftAt U ws i) (maskAt U ws i) f) rhs))
    ∧ (intBits ≤ U ∨ shiftAt U ws i + min (ws.getD i 0) U = U →
        readS U (shiftAt U ws i) (maskAt U ws i) f
          = toSigned (min (ws.getD i 0) U)
              (readU (shiftAt U ws i) (maskAt U ws i) f)) := by
  have hmin : 0 < min (ws.getD i 0) U := by
    have h1 := Nat.min_le_left (ws.getD i 0) U
    have h2 := Nat.min_le_right (ws.getD i 0) U
    omega
  have hfit := shiftAt_add_min_le hU hi hw
  have hmeq : maskAt U ws i = (2 ^ min (ws.getD i 0) U - 1) <<< shiftAt U ws i := by
    rw [maskAt]
    exact maskOf_eq hfit
  refine ⟨?_, ?_, ?_, ?_, fun hext => ?_⟩
  · rw [hmeq]
    exact shlAssign_eq_raw hfit rhs
  · rw [hmeq]
    exact shlAssign_eq_signed hmin hfit hf rhs
  · rw [hmeq]
    exact shrAssignU_eq_raw hfit rhs
  · rw [hmeq]
    exact shrAssignS_eq_sar hmin hfit hf rhs
  · rw [hmeq, readS_eq hmin hfit hf, if_pos hext, readU_eq]

/-- Witness for C2: the 3-bit and 1-bit fields of the first unit have
disjoint masks. -/
theorem C2_witness : maskAt 8 [3, 1, 5] 0 &&& maskAt 8 [3, 1, 5] 1 = 0 :=
  (C2_disjoint_frame 8 [3, 1, 5] 0 1 (by decide) (by decide) (by decide) (by decide)
    (by decide) (by decide)).1 (by decide)

/-- Witness for C3: the 5-bit field begins at the next unit boundary because
it would straddle the first one. -/
theorem C3_witness :
    fieldBegin 8 [3, 1, 5] 2 = alignUp 8 (cursorAfter 8 ([3, 1, 5].take 2) 0) :=
  (C3_alignment 8 [3, 1, 5] 2 (by decide) (by decide)).1 (by decide)

/-- Witness for C4: the zero-width marker of the test layout advances the
cursor from 4 to the boundary 8. -/
theorem C4_witness :
    cursorAfter 8 ([3, 1, 0, 1].take 3) 0 = alignUp 8 (cursorAfter 8 ([3, 1, 0, 1].take 2) 0) :=
  (C4_padding 8 [3, 1, 0, 1] 2 (by decide) (by decide) (by decide)).1

/-- Witness for C6: the 1-bit field's range ends before the 5-bit field's
begin. -/
theorem C6_witness : fieldBegin 8 [3, 1, 5] 1 + [3, 1, 5].getD 1 0 ≤ fieldBegin 8 [3, 1, 5] 2 :=
  (C6_layout_invariants 8 [3, 1, 5] (by decide)).2.1 1 2 (by decide) (by decide) (by decide)
    (by decide)

/-- Witness for C7: `operator+=` on a concrete 4-bit field equals
read-add-write. -/
theorem C7_witness :
    addAssign false 8 (shiftAt 8 [4, 4] 1) (maskAt 8 [4, 4] 1) 0x21 3
      = assignOp 8 (shiftAt 8 [4, 4] 1) (maskAt 8 [4, 4] 1) 0x21
          (readField false 8 (shiftAt 8 [4, 4] 1) (maskAt 8 [4, 4] 1) 0x21 + 3) :=
  (C7_compound_ops 8 [4, 4] 1 false 0x21 3 (by decide) (by decide) (by decide) (by decide)).1

/-- Witness for C8: signed `operator>>=` on a concrete 4-bit field equals
the arithmetic shift of the conversion value, re-masked. -/
theorem C8_witness :
    shrAssign true 8 (shiftAt 8 [4, 4] 1) (maskAt 8 [4, 4] 1) 0xA1 1
      = assignOp 8 (shiftAt 8 [4, 4] 1) (maskAt 8 [4, 4] 1) 0xA1
          (sar (readS 8 (shiftAt 8 [4, 4] 1) (maskAt 8 [4, 4] 1) 0xA1) 1) :=
  (C8_shift_ops 8 [4, 4] 1 0xA1 1 (by decide) (by decide) (by decide) (by decide)).2.2.2.1

example : dataSize 8 [3, 1, 1] = 1 := by decide
example :
    setField 8 [3, 1, 1] (setField 8 [3, 1, 1] (setField 8 [3, 1, 1] [0] 0 2) 1 0) 2 1
      = [0b00010010] := by decide
example : dataSize 8 [3, 1, 5] = 2 := by decide
example :
    setField 8 [3, 1, 5] (setField 8 [3, 1, 5] (setField 8 [3, 1, 5] [0, 0] 0 2) 1 0) 2 10
      = [0b00000010, 0b00001010] := by decide
example : dataSize 8 [3, 1, 2, 1] = 1 := by decide
example :
    setField 8 [3, 1, 2, 1] (setField 8 [3, 1, 2, 1] (setField 8 [3, 1, 2, 1] [0] 0 2) 1 0) 3 1
      = [0b01000010] := by decide
example : dataSize 8 [3, 1, 0, 1] = 2 := by decide
example :
    setField 8 [3, 1, 0, 1] (setField 8 [3, 1, 0, 1] (setField 8 [3, 1, 0, 1] [0, 0] 0 2) 1 0) 3 1
      = [0b00000010, 0b00000001] := by decide
example : dataSize 16 [3, 1, 5] = 1 := by decide
example :
    setField 16 [3, 1, 5] (setField 16 [3, 1, 5] (setField 16 [3, 1, 5] [0] 0 2) 1 0) 2 10
      = [0b0000000010100010] := by decide
-- doc example: BitField<uint8_t, Field<"a",3>, ConstField<"b",2,3>, Padding<2>, Field<"c",1,1>>
-- after a = 6, storage is 10011110
example : initData 8 [3, 2, 2, 1] [0, 3, 0, 1] = [0b10011000] := by decide
example : setField 8 [3, 2, 2, 1] (initData 8 [3, 2, 2, 1] [0, 3, 0, 1]) 0 6
      = [0b10011110] := by decide
-- signed reads: int32_t with two 4-bit fields, A = -3 -> pattern 0b1101
-- (the repository's signed operator tests are instantiated at int32_t only)
example : getS 32 [4, 4] (setField 32 [4, 4] [0] 0 (-3)) 0 = -3 := by decide
example : getS 32 [4, 4] (setField 32 [4, 4] [0] 1 (-8)) 1 = -8 := by decide
example : getU 8 [3, 1, 5] [0b110, 0] 0 = 6 := by decide
-- integer promotion: for an int8_t/int16_t base a field at the unit top is
-- sign-extended, a field below the top is not
example : getS 8 [4, 4] (setField 8 [4, 4] [0] 1 (-8)) 1 = -8 := by decide
example : getS 16 [4, 4] (setField 16 [4, 4] [0] 1 (-8)) 1 = 8 := by decide
example : getS 16 [4, 12] (setField 16 [4, 12] [0] 1 (-1)) 1 = -1 := by decide

end OrderedBitField
